import Mathlib

/-!
Verification of the resumable windowed collection engine in
`src/okn_wobd/cli.py` (OKN-WOBD).  The Python source is shallowly embedded:
pure helpers become Lean functions, the stateful fetch loops become
recursive functions threading explicit state, HTTP traffic is abstracted as
a deterministic backing function from requests to responses, and every
request / checkpoint write / warning is recorded in an explicit trace so
that properties of "what the program did" can be stated and proved.

String primitives are re-implemented structurally on `List Char` (rather
than through `String.map` / `String.replace`, which use well-founded
recursion) so that concrete runs of the model reduce inside the kernel.
-/

set_option maxHeartbeats 1000000

/-- ASCII model of Python `str.lower` (the source only lowercases ASCII
identifiers and resource names). -/
def pyLower (s : String) : String := String.mk (s.data.map Char.toLower)

/-- ASCII model of Python `str.upper`. -/
def pyUpper (s : String) : String := String.mk (s.data.map Char.toUpper)

/-- ASCII model of Python `ch.isalnum()`. -/
def pyIsAlnum (c : Char) : Bool := c.isAlpha || c.isDigit

/-- Does `pat` occur as a contiguous substring?  Model of Python's
`pat in s` on strings. -/
def subOccurs (pat : List Char) : List Char → Bool
  | [] => pat.isEmpty
  | c :: t => pat.isPrefixOf (c :: t) || subOccurs pat t

/-- Model of Python `s.__contains__(pat)` for strings. -/
def containsSub (s pat : String) : Bool := subOccurs pat.data s.data

/-- Left-to-right, non-overlapping replacement of `pat` by `repl`, the
semantics of Python `str.replace`.  Fuel-indexed so it reduces
structurally; fuel `s.length` always suffices because each step consumes
at least one character of the input. -/
def replaceSubF (pat repl : List Char) : Nat → List Char → List Char
  | _, [] => []
  | 0, s => s
  | fuel + 1, c :: t =>
      if !pat.isEmpty && pat.isPrefixOf (c :: t) then
        repl ++ replaceSubF pat repl fuel ((c :: t).drop pat.length)
      else
        c :: replaceSubF pat repl fuel t

/-- Model of Python `s.replace(pat, repl)`. -/
def pyReplace (s pat repl : String) : String :=
  String.mk (replaceSubF pat.data repl.data s.data.length s.data)

/-- The `while "__" in clean: clean = clean.replace("__", "_")` loop from
`slugify` (`cli.py` lines 99-100), run with fuel: each round strictly
shrinks the string while a double underscore remains, so fuel `s.length`
always suffices to reach the fixpoint. -/
def collapseUnd : Nat → String → String
  | 0, s => s
  | fuel + 1, s =>
      if containsSub s "__" then collapseUnd fuel (pyReplace s "__" "_")
      else s

/-- Python `s.strip("_")` on the character-list level. -/
def stripUnd (l : List Char) : List Char :=
  ((l.dropWhile (· = '_')).reverse.dropWhile (· = '_')).reverse

/-- `slugify` (`cli.py` lines 97-101): keep alphanumerics, replace every
other character by `_`, collapse runs of `_`, strip leading/trailing `_`,
lowercase, and fall back to `"resource"` when empty. -/
def slugify (value : String) : String :=
  let clean := String.mk (value.data.map (fun ch => if pyIsAlnum ch then ch else '_'))
  let clean := collapseUnd clean.data.length clean
  let stripped := pyLower (String.mk (stripUnd clean.data))
  if stripped = "" then "resource" else stripped

/-- Output record log path for a resource (`cli.py` line 722). -/
def dataPath (resource : String) : String := slugify resource ++ ".jsonl"

/-- Checkpoint file path for a resource (`cli.py` line 723). -/
def statePath (resource : String) : String := slugify resource ++ "_state.json"

/-- C10: the slug map that derives per-resource file names is not
injective: the distinct resource names "ImmPort" and "immport" (differing
only in case) receive the same slug, hence the same checkpoint file path
and the same output record log path. -/
theorem slugify_not_injective :
    slugify "ImmPort" = slugify "immport" ∧
    "ImmPort" ≠ "immport" ∧
    dataPath "ImmPort" = dataPath "immport" ∧
    statePath "ImmPort" = statePath "immport" := by
  refine ⟨?_, ?_, ?_, ?_⟩ <;> decide

/-! ## Queries (`build_query`, `cli.py` lines 234-292) -/

/-- Python `s.startswith(pat)`. -/
def strStarts (s pat : String) : Bool := pat.data.isPrefixOf s.data

/-- Python `s.split(sep, 1)` when `sep` occurs: the part before the first
separator and the raw remainder; `none` when `sep` is absent. -/
def breakAtChar (sep : Char) : List Char → Option (List Char × List Char)
  | [] => none
  | c :: t =>
      if c = sep then some ([], t)
      else
        match breakAtChar sep t with
        | none => none
        | some (a, b) => some (c :: a, b)

/-- `build_query(prefix, segment_field, wildcard_query)`: a stored
wildcard query wins; an empty prefix queries everything; then the special
`_id`, `name`, `date` and DRYAD/DOI-dotted shapes; otherwise a plain
field-prefix query. -/
def buildQuery (pfx field : String) (wq : Option String) : String :=
  if wq.getD "" ≠ "" then wq.getD ""
  else if pfx = "" then "*"
  else
    match (if field = "_id" && containsSub pfx "." then breakAtChar '.' pfx.data else none) with
    | some (base, suf) =>
        let baseLower := pyLower (String.mk base)
        let baseLower :=
          if strStarts baseLower "ncbi" then "ncbi_sra"
          else if strStarts baseLower "sra" && baseLower.data.length = 3 then "sra"
          else baseLower
        "_id:*" ++ baseLower ++ "_" ++ pyLower (String.mk suf) ++ "*"
    | none =>
      if field = "name" && strStarts pfx "NAME_" then
        "name:" ++ pyLower (pyReplace pfx "NAME_" "") ++ "*"
      else if field = "date" && strStarts pfx "DATE_" then
        let datePart := pyReplace pfx "DATE_" ""
        match breakAtChar '_' datePart.data with
        | some (y, m) => "date:" ++ String.mk y ++ "-" ++ String.mk m ++ "*"
        | none => "date:" ++ datePart ++ "*"
      else
        match (if containsSub pfx "." &&
                  (strStarts (pyUpper pfx) "DRYAD" || strStarts (pyUpper pfx) "DOI")
               then breakAtChar '.' pfx.data else none) with
        | some (base, suf) =>
            field ++ ":*" ++ pyLower (String.mk base) ++ "." ++ String.mk suf ++ "*"
        | none => field ++ ":" ++ pfx ++ "*"

/-! ## Records and deduplication -/

/-- An API record, as far as the fetch core inspects it: the optional
`identifier` field, the optional `_id` field, and an opaque payload tag
that distinguishes otherwise identical records. -/
structure Rec where
  ident : Option String
  uid : Option String
  tag : Nat
deriving DecidableEq, Repr

/-- `item.get("identifier") or item.get("_id", "")` (`cli.py` line 1025):
a missing or falsy (empty) `identifier` falls back to `_id`, a missing
`_id` falls back to the empty string. -/
def dedupId (r : Rec) : String :=
  match r.ident with
  | some s => if s = "" then r.uid.getD "" else s
  | none => r.uid.getD ""

/-! ## The HTTP backing abstraction -/

/-- One page request as issued through `request_payload`: the query
string, the `from` offset and the `size`. -/
structure PageReq where
  q : String
  offset : Nat
  size : Nat
deriving DecidableEq, Repr

/-- What a page request can come back as, from the fetchers' point of
view: a decoded payload (`hits` plus an optional `total`), an
`HTTPError` whose text marks a rejected window position (`"400"` or
`"search_phase_execution_exception"`, caught in `fetch_segmented`), or
any other exception escaping `request_payload` (network retries
exhausted, other `HTTPError`s). -/
inductive ApiResp where
  | ok (hits : List Rec) (total : Option Nat)
  | badWindow
  | fatal
deriving DecidableEq, Repr

/-- Fixed, deterministic backing data: what the API answers to every
possible request. -/
def Backing := PageReq → ApiResp

/-! ## Linear fetcher (`fetch_linear`, `cli.py` lines 854-907) -/

/-- Observable outcome of a `fetch_linear` run: the requests issued, the
records appended to the log, the checkpoint dumps `(next_offset, total)`,
the final loop state, and whether an exception escaped. -/
structure LinRes where
  reqs : List PageReq
  out : List Rec
  persists : List (Nat × Option Nat)
  finalOffset : Nat
  finalTotal : Option Nat
  raised : Bool
deriving Repr

/-- `fetch_linear`: starting from the checkpoint's `next_offset` and
`total`, repeatedly request `page_size` records at `offset` with query
`"*"`; stop on an empty page, append and checkpoint otherwise, and stop
once `offset ≥ total`.  The Python loop is unbounded (`while True`), so
the model takes fuel; every claim proved about it holds for every fuel. -/
def fetchLinear (b : Backing) (pageSize : Nat) : Nat → Nat → Option Nat → LinRes
  | 0, offset, total => ⟨[], [], [], offset, total, false⟩
  | fuel + 1, offset, total =>
      let req : PageReq := ⟨"*", offset, pageSize⟩
      match b req with
      | .ok hits t' =>
          let total' := match t' with | some t => some t | none => total
          if hits.isEmpty then ⟨[req], [], [], offset, total', false⟩
          else
            let offset' := offset + hits.length
            if (match total' with | some t => decide (offset' ≥ t) | none => false) then
              ⟨[req], hits, [(offset', total')], offset', total', false⟩
            else
              let rest := fetchLinear b pageSize fuel offset' total'
              ⟨req :: rest.reqs, hits ++ rest.out, (offset', total') :: rest.persists,
               rest.finalOffset, rest.finalTotal, rest.raised⟩
      | .badWindow => ⟨[req], [], [], offset, total, true⟩
      | .fatal => ⟨[req], [], [], offset, total, true⟩

/-! ## Segmented fetcher (`fetch_segmented`, `cli.py` lines 910-1060) -/

/-- One query segment as stored in the checkpoint: a prefix, a claimed
total, and an optional literal wildcard query override. -/
structure Segment where
  pfx : String
  total : Nat
  wq : Option String
deriving DecidableEq, Repr

/-- A persisted checkpoint position for segmented mode:
`(segment_index, segment_offset)`. -/
structure Ckpt where
  segIdx : Nat
  segOff : Nat
deriving DecidableEq, Repr

/-- Warnings appended to the `warnings` list by `fetch_segmented`:
`segment_exceeds_limit` (before paging a segment whose total exceeds the
window) and `api_limit_hit` (on a caught window-rejection error). -/
inductive FWarn where
  | exceedsLimit (pfx : String) (segTotal effTotal : Nat)
  | apiLimitHit (pfx : String) (offset : Nat)
deriving DecidableEq, Repr

/-- One `state.dump(...)` event: the checkpoint written, together with the
records appended to the log so far and the hits received so far at the
moment of the dump. -/
structure TraceEntry where
  ck : Ckpt
  outPre : List Rec
  hitsPre : List Rec
deriving DecidableEq, Repr

/-- The per-page dedup-and-write loop (`cli.py` lines 1022-1035): returns
the grown seen-set, the records actually written, and the number of
duplicates skipped. -/
def writePage (seen : List String) : List Rec → List String × List Rec × Nat
  | [] => (seen, [], 0)
  | r :: rs =>
      if dedupId r ∈ seen then
        let wp := writePage seen rs
        (wp.1, wp.2.1, wp.2.2 + 1)
      else
        let wp := writePage (dedupId r :: seen) rs
        (wp.1, r :: wp.2.1, wp.2.2)

/-- Observable outcome of paging one segment. -/
structure PageStep where
  reqs : List PageReq
  hits : List Rec
  out : List Rec
  dups : Nat
  warns : List FWarn
  trace : List TraceEntry
  seen : List String
  raised : Bool
deriving DecidableEq, Repr

/-- The paging loop of one segment (`cli.py` lines 974-1048), running
while `offset < eff`: compute `size = min(page_size, eff - offset,
max_window - offset)`, stop if the size degenerates, issue the request
(breaking the segment on a window-rejection error, re-raising anything
else), stop on an empty page, otherwise dedup-write the page, advance the
offset, persist the checkpoint, and stop early once `offset` reaches the
segment's claimed total.  Structurally fuelled: the offset strictly
increases on every iteration, so fuel `eff` is always enough (see
`segPages`). -/
def segPagesF (b : Backing) (field : String) (pageSize maxW : Nat) (seg : Segment)
    (idx eff : Nat) : Nat → Nat → List String → PageStep
  | 0, _, seen => ⟨[], [], [], 0, [], [], seen, false⟩
  | fuel + 1, offset, seen =>
      if offset < eff then
        let size := min pageSize (min (eff - offset) (maxW - offset))
        if size = 0 then ⟨[], [], [], 0, [], [], seen, false⟩
        else
          let req : PageReq := ⟨buildQuery seg.pfx field seg.wq, offset, size⟩
          match b req with
          | .badWindow => ⟨[req], [], [], 0, [.apiLimitHit seg.pfx offset], [], seen, false⟩
          | .fatal => ⟨[req], [], [], 0, [], [], seen, true⟩
          | .ok hits _ =>
              if hits.isEmpty then ⟨[req], [], [], 0, [], [], seen, false⟩
              else
                let wp := writePage seen hits
                let seen' := wp.1
                let written := wp.2.1
                let d := wp.2.2
                let offset' := offset + hits.length
                let entry : TraceEntry := ⟨⟨idx, offset'⟩, written, hits⟩
                if seg.total ≤ offset' then
                  ⟨[req], hits, written, d, [], [entry], seen', false⟩
                else
                  let rest := segPagesF b field pageSize maxW seg idx eff fuel offset' seen'
                  ⟨req :: rest.reqs, hits ++ rest.hits, written ++ rest.out, d + rest.dups,
                   rest.warns,
                   entry :: rest.trace.map
                     (fun e => ⟨e.ck, written ++ e.outPre, hits ++ e.hitsPre⟩),
                   rest.seen, rest.raised⟩
      else ⟨[], [], [], 0, [], [], seen, false⟩

/-- Paging one segment with its canonical (always sufficient) fuel. -/
def segPages (b : Backing) (field : String) (pageSize maxW : Nat) (seg : Segment)
    (idx eff offset : Nat) (seen : List String) : PageStep :=
  segPagesF b field pageSize maxW seg idx eff eff offset seen

/-- Ghost summary of one processed (nonzero-total) segment: its index,
prefix, claimed total, effective total, and the page requests issued
inside it. -/
structure SegEvent where
  idx : Nat
  pfx : String
  segTotal : Nat
  eff : Nat
  reqs : List PageReq
deriving DecidableEq, Repr

/-- Observable outcome of a whole `fetch_segmented` run. -/
structure SegRun where
  events : List SegEvent
  hits : List Rec
  out : List Rec
  dups : Nat
  warns : List FWarn
  trace : List TraceEntry
  seen : List String
  raised : Bool
deriving DecidableEq, Repr

/-- The outer segment walk (`cli.py` lines 934-1052): for `idx` from the
checkpoint's `segment_index` to the end of the list, resume the offset
from the checkpoint's `segment_offset` only when `idx` is the starting
index, skip-and-persist zero-total segments, cap the effective total at
the window (`min(segment_total, (max_window - 1) + 1)`, warning when the
claimed total exceeds it), page the segment, and persist
`(idx + 1, 0)` on segment completion.  Fuelled by the number of remaining
segments (see `runSegmented`). -/
def runSegsF (b : Backing) (field : String) (pageSize maxW : Nat) (segs : List Segment)
    (startIdx startOff : Nat) : Nat → Nat → List String → SegRun
  | 0, _, seen => ⟨[], [], [], 0, [], [], seen, false⟩
  | fuel + 1, idx, seen =>
      if h : idx < segs.length then
        let seg := segs.get ⟨idx, h⟩
        let offset := if idx = startIdx then startOff else 0
        if seg.total = 0 then
          let rest := runSegsF b field pageSize maxW segs startIdx startOff fuel (idx + 1) seen
          ⟨rest.events, rest.hits, rest.out, rest.dups, rest.warns,
           ⟨⟨idx + 1, 0⟩, [], []⟩ :: rest.trace, rest.seen, rest.raised⟩
        else
          let eff := min seg.total maxW
          let warnsHere : List FWarn :=
            if maxW < seg.total then [.exceedsLimit seg.pfx seg.total eff] else []
          let step := segPages b field pageSize maxW seg idx eff offset seen
          let ev : SegEvent := ⟨idx, seg.pfx, seg.total, eff, step.reqs⟩
          if step.raised then
            ⟨[ev], step.hits, step.out, step.dups, warnsHere ++ step.warns,
             step.trace, step.seen, true⟩
          else
            let rest := runSegsF b field pageSize maxW segs startIdx startOff fuel (idx + 1) step.seen
            ⟨ev :: rest.events, step.hits ++ rest.hits, step.out ++ rest.out,
             step.dups + rest.dups, warnsHere ++ step.warns ++ rest.warns,
             step.trace ++ ⟨⟨idx + 1, 0⟩, step.out, step.hits⟩ ::
               rest.trace.map (fun e => ⟨e.ck, step.out ++ e.outPre, step.hits ++ e.hitsPre⟩),
             rest.seen, rest.raised⟩
      else ⟨[], [], [], 0, [], [], seen, false⟩

/-- A whole `fetch_segmented` run from a checkpoint: normalise the
segment list (`state.segments or [{"prefix": "", "total": 0}]`), start the
walk at the checkpoint's `segment_index`, and start with an empty
in-memory seen-set — the deduplicator is not persisted across runs. -/
def runSegmented (b : Backing) (field : String) (pageSize maxW : Nat)
    (segs0 : List Segment) (ck : Ckpt) : SegRun :=
  let segs := if segs0.isEmpty then [⟨"", 0, none⟩] else segs0
  runSegsF b field pageSize maxW segs ck.segIdx ck.segOff segs.length ck.segIdx []

/-! ## Per-request laws of the segmented fetcher -/

/-- Every request issued while paging one segment respects the loop's
size law: its offset is below the effective total and its size is the
positive minimum of the page size, the records remaining in the segment,
and the space left under the window. -/
theorem segPagesF_req_shape (b : Backing) (field : String) (pageSize maxW : Nat)
    (seg : Segment) (idx eff : Nat) :
    ∀ (fuel offset : Nat) (seen : List String),
      ∀ r ∈ (segPagesF b field pageSize maxW seg idx eff fuel offset seen).reqs,
        r.offset < eff ∧ 0 < r.size ∧
        r.size = min pageSize (min (eff - r.offset) (maxW - r.offset)) ∧
        r.q = buildQuery seg.pfx field seg.wq := by
  intro fuel
  induction fuel with
  | zero => intro offset seen r hr; simp [segPagesF] at hr
  | succ fuel ih =>
      intro offset seen r hr
      simp only [segPagesF] at hr
      split at hr
      · rename_i hoff
        split at hr
        · simp at hr
        · rename_i hsize
          split at hr
          · simp only [List.mem_singleton] at hr
            subst hr; exact ⟨hoff, Nat.pos_of_ne_zero hsize, rfl, rfl⟩
          · simp only [List.mem_singleton] at hr
            subst hr; exact ⟨hoff, Nat.pos_of_ne_zero hsize, rfl, rfl⟩
          · split at hr
            · simp only [List.mem_singleton] at hr
              subst hr; exact ⟨hoff, Nat.pos_of_ne_zero hsize, rfl, rfl⟩
            · split at hr
              · simp only [List.mem_singleton] at hr
                subst hr; exact ⟨hoff, Nat.pos_of_ne_zero hsize, rfl, rfl⟩
              · simp only [List.mem_cons] at hr
                rcases hr with hr | hr
                · subst hr; exact ⟨hoff, Nat.pos_of_ne_zero hsize, rfl, rfl⟩
                · exact ih _ _ r hr
      · simp at hr

/-- The first request of a segment's paging loop, when one is issued at
all, is issued at exactly the offset the loop was entered with. -/
theorem segPagesF_head_offset (b : Backing) (field : String) (pageSize maxW : Nat)
    (seg : Segment) (idx eff : Nat) (fuel offset : Nat) (seen : List String) (r : PageReq) :
    (segPagesF b field pageSize maxW seg idx eff fuel offset seen).reqs.head? = some r →
    r.offset = offset := by
  intro hr
  cases fuel with
  | zero => simp [segPagesF] at hr
  | succ fuel =>
      simp only [segPagesF] at hr
      split at hr
      · split at hr
        · simp at hr
        · split at hr
          · simp only [List.head?_cons, Option.some.injEq] at hr
            subst hr; rfl
          · simp only [List.head?_cons, Option.some.injEq] at hr
            subst hr; rfl
          · split at hr
            · simp only [List.head?_cons, Option.some.injEq] at hr
              subst hr; rfl
            · split at hr
              · simp only [List.head?_cons, Option.some.injEq] at hr
                subst hr; rfl
              · simp only [List.head?_cons, Option.some.injEq] at hr
                subst hr; rfl
      · simp at hr

/-- Per-segment facts of the outer walk: every processed segment event
sits at or after the starting index, carries a nonzero claimed total, has
`eff = min(total, max_window)`, its requests obey the size law, its first
request starts at the resumed offset (the checkpoint's `segment_offset`
for the starting segment, `0` otherwise), and a claimed total above the
window leaves a `segment_exceeds_limit` warning in the run's warning
list. -/
theorem runSegsF_events (b : Backing) (field : String) (pageSize maxW : Nat)
    (segs : List Segment) (startIdx startOff : Nat) :
    ∀ (fuel idx : Nat) (seen : List String),
      ∀ ev ∈ (runSegsF b field pageSize maxW segs startIdx startOff fuel idx seen).events,
        idx ≤ ev.idx ∧ ev.segTotal ≠ 0 ∧ ev.eff = min ev.segTotal maxW ∧
        (∀ r ∈ ev.reqs,
          r.offset < ev.eff ∧ 0 < r.size ∧
          r.size = min pageSize (min (ev.eff - r.offset) (maxW - r.offset))) ∧
        (∀ r, ev.reqs.head? = some r →
          r.offset = (if ev.idx = startIdx then startOff else 0)) ∧
        (maxW < ev.segTotal →
          FWarn.exceedsLimit ev.pfx ev.segTotal ev.eff ∈
            (runSegsF b field pageSize maxW segs startIdx startOff fuel idx seen).warns) := by
  intro fuel
  induction fuel with
  | zero => intro idx seen ev hev; simp [runSegsF] at hev
  | succ fuel ih =>
      intro idx seen ev hev
      simp only [runSegsF] at hev
      by_cases h : idx < segs.length
      · rw [dif_pos h] at hev
        by_cases hz : (segs.get ⟨idx, h⟩).total = 0
        · rw [if_pos hz] at hev
          try dsimp only at hev
          obtain ⟨h1, h2, h3, h4, h5, h6⟩ := ih (idx + 1) seen ev hev
          refine ⟨by omega, h2, h3, h4, h5, ?_⟩
          intro hgt
          simp only [runSegsF]
          rw [dif_pos h, if_pos hz]
          exact h6 hgt
        · rw [if_neg hz] at hev
          try dsimp only at hev
          by_cases hraised :
              (segPages b field pageSize maxW (segs.get ⟨idx, h⟩) idx
                (min (segs.get ⟨idx, h⟩).total maxW)
                (if idx = startIdx then startOff else 0) seen).raised = true
          · rw [if_pos hraised] at hev
            simp only [List.mem_singleton] at hev
            subst hev
            refine ⟨le_refl _, hz, rfl, ?_, ?_, ?_⟩
            · intro r hr
              have := segPagesF_req_shape b field pageSize maxW (segs.get ⟨idx, h⟩) idx
                (min (segs.get ⟨idx, h⟩).total maxW) _ _ _ r hr
              exact ⟨this.1, this.2.1, this.2.2.1⟩
            · intro r hr
              exact segPagesF_head_offset b field pageSize maxW _ _ _ _ _ _ r hr
            · intro hgt
              simp only [runSegsF]
              rw [dif_pos h, if_neg hz]
              try dsimp only
              rw [if_pos hraised]
              try dsimp only
              rw [if_pos hgt]
              exact List.mem_append_left _ (List.mem_singleton.mpr rfl)
          · rw [if_neg hraised] at hev
            try dsimp only at hev
            rw [List.mem_cons] at hev
            rcases hev with hev | hev
            · subst hev
              refine ⟨le_refl _, hz, rfl, ?_, ?_, ?_⟩
              · intro r hr
                have := segPagesF_req_shape b field pageSize maxW (segs.get ⟨idx, h⟩) idx
                  (min (segs.get ⟨idx, h⟩).total maxW) _ _ _ r hr
                exact ⟨this.1, this.2.1, this.2.2.1⟩
              · intro r hr
                exact segPagesF_head_offset b field pageSize maxW _ _ _ _ _ _ r hr
              · intro hgt
                simp only [runSegsF]
                rw [dif_pos h, if_neg hz]
                try dsimp only
                rw [if_neg hraised]
                try dsimp only
                rw [if_pos hgt]
                exact List.mem_append_left _ (List.mem_append_left _ (List.mem_singleton.mpr rfl))
            · obtain ⟨h1, h2, h3, h4, h5, h6⟩ := ih (idx + 1) _ ev hev
              refine ⟨by omega, h2, h3, h4, h5, ?_⟩
              intro hgt
              simp only [runSegsF]
              rw [dif_pos h, if_neg hz]
              try dsimp only
              rw [if_neg hraised]
              try dsimp only
              exact List.mem_append_right _ (h6 hgt)
      · rw [dif_neg h] at hev
        simp at hev

/-! ## Constants from the top of `cli.py` -/

def DEFAULT_PAGE_SIZE : Nat := 100

def DEFAULT_SEGMENT_CHARSET : String := "0123456789ABCDEFGHIJKLMNOPQRSTUVWXYZ"

def DEFAULT_MAX_PREFIX_LENGTH : Nat := 8

def MAX_RESULT_WINDOW : Nat := 10000

/-! ## C1: the window-cap invariant on fetch attempts -/

/-- C1 (counterexample): the claim fails for the Linear Fetcher.  Resumed
from a checkpoint with `next_offset = 9999` and `total = 10000` (reachable
after a short page), with the default page size 100 and the default window
cap 10000, `fetch_linear` issues the single request
`(offset 9999, size 100)` — and `9999 + 100 > 10000`, so not every fetch
attempt satisfies `offset + page_size ≤ max_window`. -/
theorem fetchLinear_window_cap_counterexample :
    (fetchLinear (fun _ => ApiResp.ok [] none) DEFAULT_PAGE_SIZE 1 9999
        (some MAX_RESULT_WINDOW)).reqs = [⟨"*", 9999, 100⟩] ∧
    MAX_RESULT_WINDOW < 9999 + 100 := by
  exact ⟨by decide, by decide⟩

/-- C1 (amended): every fetch attempt issued by the Segmented Fetcher
satisfies `offset + size ≤ max_window`, for every backing, page size,
segment list and starting checkpoint state; the Linear Fetcher does not
clamp its page size and can exceed the cap (see the counterexample). -/
theorem segmented_requests_within_window (b : Backing) (field : String)
    (pageSize maxW : Nat) (segs0 : List Segment) (ck : Ckpt) :
    ∀ ev ∈ (runSegmented b field pageSize maxW segs0 ck).events,
      ∀ r ∈ ev.reqs, r.offset + r.size ≤ maxW := by
  intro ev hev r hr
  simp only [runSegmented] at hev
  obtain ⟨-, -, heff, hshape, -, -⟩ :=
    runSegsF_events b field pageSize maxW _ ck.segIdx ck.segOff _ ck.segIdx [] ev hev
  obtain ⟨ho, -, hsz⟩ := hshape r hr
  have h1 : r.size ≤ maxW - r.offset := by
    rw [hsz]; exact le_trans (Nat.min_le_right _ _) (Nat.min_le_right _ _)
  have h2 : ev.eff ≤ maxW := by rw [heff]; exact Nat.min_le_right _ _
  omega

/-- A concrete backing and segment list used to witness the segmented
fetcher theorems: one segment of one record, every request answered with
a single-record page. -/
def exBacking : Backing := fun _ => ApiResp.ok [⟨some "x", none, 0⟩] none

def exSegs : List Segment := [⟨"A", 1, none⟩]

/-- Witness for the amended C1 theorem at a concrete run. -/
theorem segmented_requests_within_window_witness :
    ((⟨0, "A", 1, 1, [⟨"identifier:A*", 0, 1⟩]⟩ : SegEvent) ∈
      (runSegmented exBacking "identifier" 5 10 exSegs ⟨0, 0⟩).events) ∧
    ((⟨"identifier:A*", 0, 1⟩ : PageReq) ∈
      (⟨0, "A", 1, 1, [⟨"identifier:A*", 0, 1⟩]⟩ : SegEvent).reqs) ∧
    (⟨"identifier:A*", 0, 1⟩ : PageReq).offset +
      (⟨"identifier:A*", 0, 1⟩ : PageReq).size ≤ 10 :=
  ⟨by decide, by decide,
   segmented_requests_within_window exBacking "identifier" 5 10 exSegs ⟨0, 0⟩
     ⟨0, "A", 1, 1, [⟨"identifier:A*", 0, 1⟩]⟩ (by decide)
     ⟨"identifier:A*", 0, 1⟩ (by decide)⟩

/-! ## C5: the per-segment bound and paging law -/

/-- C5 (confirmed): for every segment processed by the Segmented Fetcher
(with `safe_limit = max_window - 1`), the fetch bound is
`effective_total = min(segment.total, safe_limit + 1)`; a stated total
above this bound leaves a sub-segmentation-needed warning
(`segment_exceeds_limit`) in the warning list; and the paging loop only
issues requests at `offset < effective_total` with
`size = min(page_size, effective_total - offset, window_cap - offset)`
positive — it stops instead of issuing a degenerate (`≤ 0`) size. -/
theorem segmented_effective_total_law (b : Backing) (field : String)
    (pageSize maxW : Nat) (segs0 : List Segment) (ck : Ckpt) (hW : 1 ≤ maxW) :
    ∀ ev ∈ (runSegmented b field pageSize maxW segs0 ck).events,
      ev.eff = min ev.segTotal ((maxW - 1) + 1) ∧
      ((maxW - 1) + 1 < ev.segTotal →
        FWarn.exceedsLimit ev.pfx ev.segTotal ev.eff ∈
          (runSegmented b field pageSize maxW segs0 ck).warns) ∧
      ∀ r ∈ ev.reqs,
        r.offset < ev.eff ∧ 0 < r.size ∧
        r.size = min pageSize (min (ev.eff - r.offset) (maxW - r.offset)) := by
  have hW1 : (maxW - 1) + 1 = maxW := by omega
  intro ev hev
  rw [hW1]
  simp only [runSegmented] at hev ⊢
  obtain ⟨-, -, heff, hshape, -, hwarn⟩ :=
    runSegsF_events b field pageSize maxW _ ck.segIdx ck.segOff _ ck.segIdx [] ev hev
  exact ⟨heff, hwarn, hshape⟩

/-- Witness for the C5 theorem at a concrete run. -/
theorem segmented_effective_total_law_witness :
    1 ≤ 10 ∧
    ((⟨0, "A", 1, 1, [⟨"identifier:A*", 0, 1⟩]⟩ : SegEvent) ∈
      (runSegmented exBacking "identifier" 5 10 exSegs ⟨0, 0⟩).events) ∧
    (⟨0, "A", 1, 1, [⟨"identifier:A*", 0, 1⟩]⟩ : SegEvent).eff = min 1 ((10 - 1) + 1) :=
  ⟨by decide, by decide,
   (segmented_effective_total_law exBacking "identifier" 5 10 exSegs ⟨0, 0⟩ (by decide)
     ⟨0, "A", 1, 1, [⟨"identifier:A*", 0, 1⟩]⟩ (by decide)).1⟩

/-! ## C6: resuming reproduces the exact next unit of work -/

/-- C6 (confirmed): resuming from a persisted checkpoint reproduces the
exact next unit of work.  In linear mode the very first page request is
issued at offset `next_offset` (with the configured page size and the
`"*"` query); in segmented mode no segment below `segment_index` is
processed, and within each processed segment the first request starts at
`checkpoint.segment_offset` for the first resumed segment and at `0` for
every later segment. -/
theorem resume_reproduces_next_unit (b : Backing) (field : String)
    (pageSize maxW fuel nextOffset : Nat) (total : Option Nat)
    (segs0 : List Segment) (ck : Ckpt) :
    (fetchLinear b pageSize (fuel + 1) nextOffset total).reqs.head? =
      some ⟨"*", nextOffset, pageSize⟩ ∧
    ∀ ev ∈ (runSegmented b field pageSize maxW segs0 ck).events,
      ck.segIdx ≤ ev.idx ∧
      ∀ r, ev.reqs.head? = some r →
        r.offset = (if ev.idx = ck.segIdx then ck.segOff else 0) := by
  constructor
  · simp only [fetchLinear]
    split
    · split
      · rfl
      · split
        · rfl
        · rfl
    · rfl
    · rfl
  · intro ev hev
    simp only [runSegmented] at hev
    obtain ⟨hidx, -, -, -, hhead, -⟩ :=
      runSegsF_events b field pageSize maxW _ ck.segIdx ck.segOff _ ck.segIdx [] ev hev
    exact ⟨hidx, hhead⟩

/-- Witness for the C6 theorem at a concrete resumed run. -/
theorem resume_reproduces_next_unit_witness :
    (fetchLinear exBacking 5 (0 + 1) 7 none).reqs.head? = some ⟨"*", 7, 5⟩ ∧
    ((⟨0, "A", 1, 1, [⟨"identifier:A*", 0, 1⟩]⟩ : SegEvent) ∈
      (runSegmented exBacking "identifier" 5 10 exSegs ⟨0, 0⟩).events) ∧
    (⟨"identifier:A*", 0, 1⟩ : PageReq).offset = 0 := by
  refine ⟨(resume_reproduces_next_unit exBacking "identifier" 5 10 0 7 none exSegs ⟨0, 0⟩).1,
    by decide, ?_⟩
  have h := ((resume_reproduces_next_unit exBacking "identifier" 5 10 0 7 none exSegs
      ⟨0, 0⟩).2 ⟨0, "A", 1, 1, [⟨"identifier:A*", 0, 1⟩]⟩ (by decide)).2
      ⟨"identifier:A*", 0, 1⟩ (by decide)
  exact h

/-! ## Deduplication laws of `writePage` -/

/-- After a page is processed, an identifier is in the seen-set iff it was
already seen or occurs in the page. -/
theorem writePage_seen_mem :
    ∀ (l : List Rec) (seen : List String) (x : String),
      x ∈ (writePage seen l).1 ↔ x ∈ seen ∨ x ∈ l.map dedupId := by
  intro l
  induction l with
  | nil => intro seen x; simp [writePage]
  | cons r rs ih =>
      intro seen x
      simp only [writePage]
      split
      · rename_i hmem
        rw [ih seen x]
        simp only [List.map_cons, List.mem_cons]
        constructor
        · rintro (hx | hx)
          · exact Or.inl hx
          · exact Or.inr (Or.inr hx)
        · rintro (hx | hx | hx)
          · exact Or.inl hx
          · exact Or.inl (hx ▸ hmem)
          · exact Or.inr hx
      · rw [ih (dedupId r :: seen) x]
        simp only [List.map_cons, List.mem_cons]
        tauto

/-- An identifier occurs among the records written from a page iff it
occurs in the page and was not already seen. -/
theorem writePage_out_mem :
    ∀ (l : List Rec) (seen : List String) (x : String),
      x ∈ (writePage seen l).2.1.map dedupId ↔ x ∈ l.map dedupId ∧ x ∉ seen := by
  intro l
  induction l with
  | nil => intro seen x; simp [writePage]
  | cons r rs ih =>
      intro seen x
      simp only [writePage]
      split
      · rename_i hmem
        rw [ih seen x]
        simp only [List.map_cons, List.mem_cons]
        constructor
        · rintro ⟨hx, hns⟩; exact ⟨Or.inr hx, hns⟩
        · rintro ⟨hx | hx, hns⟩
          · exact absurd (hx ▸ hmem) hns
          · exact ⟨hx, hns⟩
      · rename_i hmem
        simp only [List.map_cons, List.mem_cons]
        rw [ih (dedupId r :: seen) x]
        simp only [List.mem_cons]
        constructor
        · rintro (hx | ⟨hx, hns⟩)
          · exact ⟨Or.inl hx, hx ▸ hmem⟩
          · exact ⟨Or.inr hx, fun hs => hns (Or.inr hs)⟩
        · rintro ⟨hx | hx, hns⟩
          · exact Or.inl hx
          · by_cases hxr : x = dedupId r
            · exact Or.inl hxr
            · exact Or.inr ⟨hx, fun hs => (by rcases hs with hs | hs; exact hxr hs; exact hns hs)⟩

/-- The records written from one page carry pairwise distinct
identifiers. -/
theorem writePage_out_nodup :
    ∀ (l : List Rec) (seen : List String),
      ((writePage seen l).2.1.map dedupId).Nodup := by
  intro l
  induction l with
  | nil => intro seen; simp [writePage]
  | cons r rs ih =>
      intro seen
      simp only [writePage]
      split
      · exact ih seen
      · simp only [List.map_cons, List.nodup_cons]
        refine ⟨?_, ih (dedupId r :: seen)⟩
        intro hmem
        rw [writePage_out_mem] at hmem
        exact hmem.2 (List.mem_cons_self _ _)

/-! ## Identifier-set laws of the paging loop -/

/-- Within one segment's paging loop: (1) an identifier is written iff it
occurs among the received hits and was not in the seen-set on entry;
(2) the final seen-set is the entry seen-set plus all received hit
identifiers; (3) the written records carry pairwise distinct
identifiers. -/
theorem segPagesF_out_ids (b : Backing) (field : String) (pageSize maxW : Nat)
    (seg : Segment) (idx eff : Nat) :
    ∀ (fuel offset : Nat) (seen : List String),
      (∀ x, x ∈ (segPagesF b field pageSize maxW seg idx eff fuel offset seen).out.map dedupId ↔
        x ∈ (segPagesF b field pageSize maxW seg idx eff fuel offset seen).hits.map dedupId ∧
          x ∉ seen) ∧
      (∀ x, x ∈ (segPagesF b field pageSize maxW seg idx eff fuel offset seen).seen ↔
        x ∈ seen ∨
          x ∈ (segPagesF b field pageSize maxW seg idx eff fuel offset seen).hits.map dedupId) ∧
      ((segPagesF b field pageSize maxW seg idx eff fuel offset seen).out.map dedupId).Nodup := by
  intro fuel
  induction fuel with
  | zero => intro offset seen; simp [segPagesF]
  | succ fuel ih =>
      intro offset seen
      simp only [segPagesF]
      split
      · split
        · simp
        · split
          · simp
          · simp
          · split
            · simp
            · split
              · refine ⟨?_, ?_, ?_⟩
                · intro x
                  exact writePage_out_mem _ seen x
                · intro x
                  exact writePage_seen_mem _ seen x
                · exact writePage_out_nodup _ seen
              · rename_i hits htot hb hne hstop
                obtain ⟨iho, ihs, ihn⟩ := ih (offset + hits.length) (writePage seen hits).1
                refine ⟨?_, ?_, ?_⟩
                · intro x
                  simp only [List.map_append, List.mem_append]
                  rw [iho x, writePage_out_mem, writePage_seen_mem]
                  tauto
                · intro x
                  simp only [List.map_append, List.mem_append]
                  rw [ihs x, writePage_seen_mem]
                  tauto
                · simp only [List.map_append]
                  rw [List.nodup_append]
                  refine ⟨writePage_out_nodup _ seen, ihn, ?_⟩
                  intro x hx hx2
                  rw [writePage_out_mem] at hx
                  rw [iho x] at hx2
                  rw [writePage_seen_mem] at hx2
                  exact hx2.2 (Or.inr hx.1)
      · simp

/-- The identifier-set laws of `segPagesF`, restated for the canonical
fuel wrapper `segPages`. -/
theorem segPages_out_ids (b : Backing) (field : String) (pageSize maxW : Nat)
    (seg : Segment) (idx eff offset : Nat) (seen : List String) :
    (∀ x, x ∈ (segPages b field pageSize maxW seg idx eff offset seen).out.map dedupId ↔
      x ∈ (segPages b field pageSize maxW seg idx eff offset seen).hits.map dedupId ∧
        x ∉ seen) ∧
    (∀ x, x ∈ (segPages b field pageSize maxW seg idx eff offset seen).seen ↔
      x ∈ seen ∨
        x ∈ (segPages b field pageSize maxW seg idx eff offset seen).hits.map dedupId) ∧
    ((segPages b field pageSize maxW seg idx eff offset seen).out.map dedupId).Nodup :=
  segPagesF_out_ids b field pageSize maxW seg idx eff eff offset seen

/-- Whole-run identifier-set laws of the segment walk: an identifier is
written iff it occurs among the received hits and was not initially seen;
the final seen-set is the initial one plus all hit identifiers; the
written records carry pairwise distinct identifiers. -/
theorem runSegsF_out_ids (b : Backing) (field : String) (pageSize maxW : Nat)
    (segs : List Segment) (startIdx startOff : Nat) :
    ∀ (fuel idx : Nat) (seen : List String),
      (∀ x, x ∈ (runSegsF b field pageSize maxW segs startIdx startOff fuel idx seen).out.map dedupId ↔
        x ∈ (runSegsF b field pageSize maxW segs startIdx startOff fuel idx seen).hits.map dedupId ∧
          x ∉ seen) ∧
      (∀ x, x ∈ (runSegsF b field pageSize maxW segs startIdx startOff fuel idx seen).seen ↔
        x ∈ seen ∨
          x ∈ (runSegsF b field pageSize maxW segs startIdx startOff fuel idx seen).hits.map dedupId) ∧
      ((runSegsF b field pageSize maxW segs startIdx startOff fuel idx seen).out.map dedupId).Nodup := by
  intro fuel
  induction fuel with
  | zero => intro idx seen; simp [runSegsF]
  | succ fuel ih =>
      intro idx seen
      simp only [runSegsF]
      by_cases h : idx < segs.length
      · rw [dif_pos h]
        by_cases hz : (segs.get ⟨idx, h⟩).total = 0
        · rw [if_pos hz]
          exact ih (idx + 1) seen
        · rw [if_neg hz]
          try dsimp only
          by_cases hraised :
              (segPages b field pageSize maxW (segs.get ⟨idx, h⟩) idx
                (min (segs.get ⟨idx, h⟩).total maxW)
                (if idx = startIdx then startOff else 0) seen).raised = true
          · rw [if_pos hraised]
            exact segPages_out_ids b field pageSize maxW _ idx _ _ seen
          · rw [if_neg hraised]
            try dsimp only
            obtain ⟨so, ss, sn⟩ := segPages_out_ids b field pageSize maxW
              (segs.get ⟨idx, h⟩) idx (min (segs.get ⟨idx, h⟩).total maxW)
              (if idx = startIdx then startOff else 0) seen
            obtain ⟨io, is', in'⟩ := ih (idx + 1)
              (segPages b field pageSize maxW (segs.get ⟨idx, h⟩) idx
                (min (segs.get ⟨idx, h⟩).total maxW)
                (if idx = startIdx then startOff else 0) seen).seen
            refine ⟨?_, ?_, ?_⟩
            · intro x
              simp only [List.map_append, List.mem_append]
              rw [so x, io x, ss x]
              tauto
            · intro x
              simp only [List.map_append, List.mem_append]
              rw [is' x, ss x]
              tauto
            · simp only [List.map_append]
              rw [List.nodup_append]
              refine ⟨sn, in', ?_⟩
              intro x hx hx2
              rw [so x] at hx
              rw [io x, ss x] at hx2
              exact hx2.2 (Or.inr hx.1)
      · rw [dif_neg h]
        simp

/-! ## C9: identifier-less records share the empty dedup key -/

/-- A counting helper: if every record satisfying `p` maps to the same
key `c`, then `p`-records are no more numerous than occurrences of `c`
among the mapped keys. -/
theorem countP_le_count_map {α β : Type} [DecidableEq β] (p : α → Bool) (f : α → β) (c : β)
    (hp : ∀ x, p x = true → f x = c) : ∀ l : List α, l.countP p ≤ (l.map f).count c := by
  intro l
  induction l with
  | nil => simp
  | cons a t ih =>
      simp only [List.countP_cons, List.map_cons, List.count_cons]
      by_cases hpa : p a = true
      · have hfa : f a = c := hp a hpa
        simp [hpa, hfa]
        omega
      · simp [hpa]
        exact le_trans ih (Nat.le_add_right _ _)

/-- C9 (confirmed): a returned record lacking both the `identifier` field
and the `_id` field is assigned the empty string as its deduplication
identifier; and within a single segmented run the written records carry
pairwise distinct deduplication identifiers, so at most one record
lacking both fields is ever written to the output log — every later
identifier-less record is skipped as a duplicate even when it is a
genuinely distinct record. -/
theorem identifierless_records_dedup_to_empty (b : Backing) (field : String)
    (pageSize maxW : Nat) (segs0 : List Segment) (ck : Ckpt) :
    (∀ r : Rec, r.ident = none → r.uid = none → dedupId r = "") ∧
    ((runSegmented b field pageSize maxW segs0 ck).out.map dedupId).Nodup ∧
    (runSegmented b field pageSize maxW segs0 ck).out.countP
      (fun r => r.ident.isNone && r.uid.isNone) ≤ 1 := by
  have hnodup : ((runSegmented b field pageSize maxW segs0 ck).out.map dedupId).Nodup := by
    simp only [runSegmented]
    exact (runSegsF_out_ids b field pageSize maxW _ ck.segIdx ck.segOff _ ck.segIdx []).2.2
  refine ⟨?_, hnodup, ?_⟩
  · intro r h1 h2
    simp [dedupId, h1, h2]
  · have hp : ∀ r : Rec, (r.ident.isNone && r.uid.isNone) = true → dedupId r = "" := by
      intro r hr
      rw [Bool.and_eq_true, Option.isNone_iff_eq_none, Option.isNone_iff_eq_none] at hr
      simp [dedupId, hr.1, hr.2]
    have h1 := countP_le_count_map _ dedupId "" hp (runSegmented b field pageSize maxW segs0 ck).out
    have h2 := (List.nodup_iff_count_le_one.mp hnodup) ""
    omega

/-- A backing whose every page holds two distinct records that both lack
`identifier` and `_id`. -/
def exBackingNoId : Backing := fun _ => ApiResp.ok [⟨none, none, 0⟩, ⟨none, none, 1⟩] none

/-- Witness for the C9 theorem: on a concrete run that receives two
distinct identifier-less records in one page, only the first is written;
the second is skipped as a duplicate. -/
theorem identifierless_records_dedup_to_empty_witness :
    dedupId ⟨none, none, 0⟩ = "" ∧
    (runSegmented exBackingNoId "identifier" 5 10 [⟨"A", 2, none⟩] ⟨0, 0⟩).out.countP
      (fun r => r.ident.isNone && r.uid.isNone) ≤ 1 ∧
    (runSegmented exBackingNoId "identifier" 5 10 [⟨"A", 2, none⟩] ⟨0, 0⟩).out =
      [⟨none, none, 0⟩] :=
  ⟨(identifierless_records_dedup_to_empty exBackingNoId "identifier" 5 10
      [⟨"A", 2, none⟩] ⟨0, 0⟩).1 ⟨none, none, 0⟩ rfl rfl,
   (identifierless_records_dedup_to_empty exBackingNoId "identifier" 5 10
      [⟨"A", 2, none⟩] ⟨0, 0⟩).2.2,
   by decide⟩

/-! ## Crash/resume decomposition machinery -/

/-- The checkpoint and hits-so-far view of a trace entry (what a crash
point exposes to a resumed run; the written-records view depends on the
in-memory seen-set and is handled separately). -/
def ckHits (e : TraceEntry) : Ckpt × List Rec := (e.ck, e.hitsPre)

/-- A paging loop entered at or past the effective total does nothing. -/
theorem segPagesF_done (b : Backing) (field : String) (pageSize maxW : Nat)
    (seg : Segment) (idx eff : Nat) (fuel offset : Nat) (seen : List String)
    (hle : eff ≤ offset) :
    segPagesF b field pageSize maxW seg idx eff fuel offset seen =
      ⟨[], [], [], 0, [], [], seen, false⟩ := by
  cases fuel with
  | zero => rfl
  | succ fuel => simp [segPagesF, Nat.not_lt.mpr hle]

/-- The requests, hits, raise flag and checkpoint/hits trace of the
paging loop do not depend on the in-memory seen-set, nor on the fuel as
long as the fuel covers the remaining window. -/
theorem segPagesF_obs_irrel (b : Backing) (field : String) (pageSize maxW : Nat)
    (seg : Segment) (idx eff : Nat) :
    ∀ (f1 f2 off : Nat) (s1 s2 : List String),
      eff ≤ off + f1 → eff ≤ off + f2 →
      (segPagesF b field pageSize maxW seg idx eff f1 off s1).hits =
        (segPagesF b field pageSize maxW seg idx eff f2 off s2).hits ∧
      (segPagesF b field pageSize maxW seg idx eff f1 off s1).raised =
        (segPagesF b field pageSize maxW seg idx eff f2 off s2).raised ∧
      (segPagesF b field pageSize maxW seg idx eff f1 off s1).trace.map ckHits =
        (segPagesF b field pageSize maxW seg idx eff f2 off s2).trace.map ckHits := by
  intro f1
  induction f1 with
  | zero =>
      intro f2 off s1 s2 h1 h2
      have hle : eff ≤ off := by omega
      rw [segPagesF_done b field pageSize maxW seg idx eff 0 off s1 hle,
          segPagesF_done b field pageSize maxW seg idx eff f2 off s2 hle]
      exact ⟨rfl, rfl, rfl⟩
  | succ f1 ih =>
      intro f2 off s1 s2 h1 h2
      by_cases hlt : off < eff
      · cases f2 with
        | zero => omega
        | succ f2 =>
            simp only [segPagesF, if_pos hlt]
            by_cases hsz : min pageSize (min (eff - off) (maxW - off)) = 0
            · simp [hsz]
            · simp only [if_neg hsz]
              cases hb : b ⟨buildQuery seg.pfx field seg.wq, off,
                  min pageSize (min (eff - off) (maxW - off))⟩ with
              | ok hits htot =>
                  simp only [hb]
                  by_cases hemp : hits.isEmpty = true
                  · simp [hemp]
                  · have hlen : 0 < hits.length := by
                      cases hits with
                      | nil => simp at hemp
                      | cons a t => simp
                    simp only [hemp, Bool.false_eq_true, if_false]
                    by_cases hstop : seg.total ≤ off + hits.length
                    · simp [hstop, ckHits]
                    · simp only [hstop, if_false]
                      try dsimp only
                      obtain ⟨ihh, ihr, iht⟩ := ih f2 (off + hits.length)
                        (writePage s1 hits).1 (writePage s2 hits).1 (by omega) (by omega)
                      refine ⟨by rw [ihh], ihr, ?_⟩
                      simp only [List.map_cons, List.map_map]
                      congr 1
                      have hmap : ∀ (l : List TraceEntry) (w : List Rec),
                          l.map (ckHits ∘ fun e =>
                            (⟨e.ck, w ++ e.outPre, hits ++ e.hitsPre⟩ : TraceEntry)) =
                            (l.map ckHits).map (fun p => (p.1, hits ++ p.2)) := by
                        intro l w
                        rw [List.map_map]
                        rfl
                      rw [hmap, hmap, iht]
              | badWindow => simp [hb]
              | fatal => simp [hb]
      · have hle : eff ≤ off := Nat.not_lt.mp hlt
        rw [segPagesF_done b field pageSize maxW seg idx eff (f1 + 1) off s1 hle,
            segPagesF_done b field pageSize maxW seg idx eff f2 off s2 hle]
        exact ⟨rfl, rfl, rfl⟩

/-- Crash/resume decomposition inside one segment: at every checkpoint
dump of the paging loop, the hits of the full loop are the hits received
so far plus the hits of a fresh loop resumed at the dumped
`segment_offset` (with any seen-set and any sufficient fuel), and the
resumed loop raises iff the full loop raises. -/
theorem segPagesF_decomp (b : Backing) (field : String) (pageSize maxW : Nat)
    (seg : Segment) (idx eff : Nat) (heff : eff ≤ seg.total) :
    ∀ (fuel off : Nat) (seen : List String), eff ≤ off + fuel →
      ∀ e ∈ (segPagesF b field pageSize maxW seg idx eff fuel off seen).trace,
        e.ck.segIdx = idx ∧
        ∀ (f2 : Nat) (s2 : List String), eff ≤ e.ck.segOff + f2 →
          (segPagesF b field pageSize maxW seg idx eff fuel off seen).hits =
            e.hitsPre ++ (segPagesF b field pageSize maxW seg idx eff f2 e.ck.segOff s2).hits ∧
          (segPagesF b field pageSize maxW seg idx eff fuel off seen).raised =
            (segPagesF b field pageSize maxW seg idx eff f2 e.ck.segOff s2).raised := by
  intro fuel
  induction fuel with
  | zero => intro off seen hsuf e he; simp [segPagesF] at he
  | succ fuel ih =>
      intro off seen hsuf e he
      simp only [segPagesF] at he ⊢
      by_cases hlt : off < eff
      · rw [if_pos hlt] at he ⊢
        by_cases hsz : min pageSize (min (eff - off) (maxW - off)) = 0
        · rw [if_pos hsz] at he; simp at he
        · rw [if_neg hsz] at he ⊢
          cases hb : b ⟨buildQuery seg.pfx field seg.wq, off,
              min pageSize (min (eff - off) (maxW - off))⟩ with
          | ok hits htot =>
              simp only [hb] at he ⊢
              by_cases hemp : hits.isEmpty = true
              · simp only [hemp, if_true] at he; simp at he
              · have hlen : 0 < hits.length := by
                  cases hits with
                  | nil => simp at hemp
                  | cons a t => simp
                simp only [hemp, Bool.false_eq_true, if_false] at he ⊢
                by_cases hstop : seg.total ≤ off + hits.length
                · rw [if_pos hstop] at he ⊢
                  try dsimp only at he ⊢
                  simp only [List.mem_singleton] at he
                  subst he
                  refine ⟨rfl, ?_⟩
                  intro f2 s2 hf2
                  have hoff2 : eff ≤ off + hits.length := le_trans heff hstop
                  rw [segPagesF_done b field pageSize maxW seg idx eff f2
                    (off + hits.length) s2 hoff2]
                  simp
                · rw [if_neg hstop] at he ⊢
                  try dsimp only at he ⊢
                  rw [List.mem_cons] at he
                  rcases he with he | he
                  · subst he
                    refine ⟨rfl, ?_⟩
                    intro f2 s2 hf2
                    try dsimp only at hf2 ⊢
                    obtain ⟨hh, hr, -⟩ := segPagesF_obs_irrel b field pageSize maxW seg idx eff
                      fuel f2 (off + hits.length) (writePage seen hits).1 s2 (by omega) hf2
                    exact ⟨by rw [hh], hr⟩
                  · rw [List.mem_map] at he
                    obtain ⟨e0, he0, rfl⟩ := he
                    obtain ⟨hck, hrest⟩ := ih (off + hits.length) (writePage seen hits).1
                      (by omega) e0 he0
                    refine ⟨hck, ?_⟩
                    intro f2 s2 hf2
                    obtain ⟨hh, hr⟩ := hrest f2 s2 hf2
                    constructor
                    · rw [hh, List.append_assoc]
                    · exact hr
          | badWindow => simp [hb] at he
          | fatal => simp [hb] at he
      · rw [if_neg hlt] at he; simp at he

/-- A segment walk entered past the end of the segment list does
nothing. -/
theorem runSegsF_done (b : Backing) (field : String) (pageSize maxW : Nat)
    (segs : List Segment) (startIdx startOff : Nat) (fuel idx : Nat) (seen : List String)
    (hle : segs.length ≤ idx) :
    runSegsF b field pageSize maxW segs startIdx startOff fuel idx seen =
      ⟨[], [], [], 0, [], [], seen, false⟩ := by
  cases fuel with
  | zero => rfl
  | succ fuel => simp [runSegsF, Nat.not_lt.mpr hle]

/-- Composing a prepended page into a trace commutes with the
checkpoint/hits view. -/
theorem map_ckHits_prepend (l : List TraceEntry) (w hh : List Rec) :
    (l.map (fun e => (⟨e.ck, w ++ e.outPre, hh ++ e.hitsPre⟩ : TraceEntry))).map ckHits =
      (l.map ckHits).map (fun p => (p.1, hh ++ p.2)) := by
  rw [List.map_map, List.map_map]
  rfl

/-- The hits, raise flag and checkpoint/hits trace of the segment walk do
not depend on the in-memory seen-set or on sufficient fuel, and depend on
the checkpoint parameters only through the per-segment starting offsets
they induce. -/
theorem runSegsF_obs_irrel (b : Backing) (field : String) (pageSize maxW : Nat)
    (segs : List Segment) :
    ∀ (f1 f2 idx sI1 sO1 sI2 sO2 : Nat) (s1 s2 : List String),
      segs.length ≤ idx + f1 → segs.length ≤ idx + f2 →
      (∀ j, idx ≤ j → (if j = sI1 then sO1 else 0) = (if j = sI2 then sO2 else 0)) →
      (runSegsF b field pageSize maxW segs sI1 sO1 f1 idx s1).hits =
        (runSegsF b field pageSize maxW segs sI2 sO2 f2 idx s2).hits ∧
      (runSegsF b field pageSize maxW segs sI1 sO1 f1 idx s1).raised =
        (runSegsF b field pageSize maxW segs sI2 sO2 f2 idx s2).raised ∧
      (runSegsF b field pageSize maxW segs sI1 sO1 f1 idx s1).trace.map ckHits =
        (runSegsF b field pageSize maxW segs sI2 sO2 f2 idx s2).trace.map ckHits := by
  intro f1
  induction f1 with
  | zero =>
      intro f2 idx sI1 sO1 sI2 sO2 s1 s2 h1 h2 hoff
      have hle : segs.length ≤ idx := by omega
      rw [runSegsF_done b field pageSize maxW segs sI1 sO1 0 idx s1 hle,
          runSegsF_done b field pageSize maxW segs sI2 sO2 f2 idx s2 hle]
      exact ⟨rfl, rfl, rfl⟩
  | succ f1 ih =>
      intro f2 idx sI1 sO1 sI2 sO2 s1 s2 h1 h2 hoff
      by_cases h : idx < segs.length
      · cases f2 with
        | zero => omega
        | succ f2 =>
            simp only [runSegsF, segPages]
            rw [dif_pos h, dif_pos h]
            have hoffeq := hoff idx (le_refl idx)
            rw [← hoffeq]
            by_cases hz : (segs.get ⟨idx, h⟩).total = 0
            · rw [if_pos hz, if_pos hz]
              try dsimp only
              obtain ⟨ihh, ihr, iht⟩ := ih f2 (idx + 1) sI1 sO1 sI2 sO2 s1 s2
                (by omega) (by omega) (fun j hj => hoff j (by omega))
              refine ⟨ihh, ihr, ?_⟩
              simp only [List.map_cons]
              rw [iht]
            · rw [if_neg hz, if_neg hz]
              try dsimp only
              obtain ⟨sh, sr, st⟩ := segPagesF_obs_irrel b field pageSize maxW
                (segs.get ⟨idx, h⟩) idx (min (segs.get ⟨idx, h⟩).total maxW)
                (min (segs.get ⟨idx, h⟩).total maxW) (min (segs.get ⟨idx, h⟩).total maxW)
                (if idx = sI1 then sO1 else 0) s1 s2 (by omega) (by omega)
              by_cases hr1 :
                  (segPagesF b field pageSize maxW (segs.get ⟨idx, h⟩) idx
                    (min (segs.get ⟨idx, h⟩).total maxW) (min (segs.get ⟨idx, h⟩).total maxW)
                    (if idx = sI1 then sO1 else 0) s1).raised = true
              · have hr2 :
                    (segPagesF b field pageSize maxW (segs.get ⟨idx, h⟩) idx
                      (min (segs.get ⟨idx, h⟩).total maxW) (min (segs.get ⟨idx, h⟩).total maxW)
                      (if idx = sI1 then sO1 else 0) s2).raised = true := by
                  rw [← sr]; exact hr1
                rw [if_pos hr1, if_pos hr2]
                exact ⟨sh, rfl, st⟩
              · have hr2 :
                    ¬(segPagesF b field pageSize maxW (segs.get ⟨idx, h⟩) idx
                      (min (segs.get ⟨idx, h⟩).total maxW) (min (segs.get ⟨idx, h⟩).total maxW)
                      (if idx = sI1 then sO1 else 0) s2).raised = true := by
                  rw [← sr]; exact hr1
                rw [if_neg hr1, if_neg hr2]
                try dsimp only
                obtain ⟨ihh, ihr, iht⟩ := ih f2 (idx + 1) sI1 sO1 sI2 sO2 _ _
                  (by omega) (by omega) (fun j hj => hoff j (by omega))
                refine ⟨by rw [sh, ihh], ihr, ?_⟩
                simp only [List.map_append, List.map_cons, map_ckHits_prepend, ckHits]
                simp only [st, iht, sh]
      · have hle : segs.length ≤ idx := Nat.not_lt.mp h
        rw [runSegsF_done b field pageSize maxW segs sI1 sO1 (f1 + 1) idx s1 hle,
            runSegsF_done b field pageSize maxW segs sI2 sO2 f2 idx s2 hle]
        exact ⟨rfl, rfl, rfl⟩

/-- Crash/resume decomposition across segments: at every checkpoint dump
of the segment walk, the hits of the full walk are the hits received
before the dump plus the hits of a fresh walk resumed from the dumped
checkpoint `(segment_index, segment_offset)` with an empty seen-set. -/
theorem runSegsF_decomp (b : Backing) (field : String) (pageSize maxW : Nat)
    (segs : List Segment) (startIdx startOff : Nat) :
    ∀ (fuel idx : Nat) (seen : List String),
      segs.length ≤ idx + fuel → startIdx ≤ idx →
      ∀ e ∈ (runSegsF b field pageSize maxW segs startIdx startOff fuel idx seen).trace,
        ∀ fr : Nat, segs.length ≤ e.ck.segIdx + fr →
          (runSegsF b field pageSize maxW segs startIdx startOff fuel idx seen).hits =
            e.hitsPre ++
              (runSegsF b field pageSize maxW segs e.ck.segIdx e.ck.segOff fr
                e.ck.segIdx []).hits := by
  intro fuel
  induction fuel with
  | zero => intro idx seen hsuf hstart e he; simp [runSegsF] at he
  | succ fuel ih =>
      intro idx seen hsuf hstart e he
      simp only [runSegsF, segPages] at he ⊢
      by_cases h : idx < segs.length
      · rw [dif_pos h] at he ⊢
        by_cases hz : (segs.get ⟨idx, h⟩).total = 0
        · rw [if_pos hz] at he ⊢
          try dsimp only at he ⊢
          rw [List.mem_cons] at he
          rcases he with he | he
          · subst he
            intro fr hfr
            try dsimp only at hfr ⊢
            obtain ⟨hh, -, -⟩ := runSegsF_obs_irrel b field pageSize maxW segs
              fuel fr (idx + 1) startIdx startOff (idx + 1) 0 seen []
              (by omega) (by omega)
              (by
                intro j hj
                have hne : j ≠ startIdx := by omega
                rw [if_neg hne]
                split <;> rfl)
            rw [hh]
            rfl
          · intro fr hfr
            exact ih (idx + 1) seen (by omega) (by omega) e he fr hfr
        · rw [if_neg hz] at he ⊢
          try dsimp only at he ⊢
          have heff : min (segs.get ⟨idx, h⟩).total maxW ≤ (segs.get ⟨idx, h⟩).total :=
            Nat.min_le_left _ _
          by_cases hraised :
              (segPagesF b field pageSize maxW (segs.get ⟨idx, h⟩) idx
                (min (segs.get ⟨idx, h⟩).total maxW) (min (segs.get ⟨idx, h⟩).total maxW)
                (if idx = startIdx then startOff else 0) seen).raised = true
          · rw [if_pos hraised] at he ⊢
            try dsimp only at he ⊢
            obtain ⟨hck, hcont⟩ := segPagesF_decomp b field pageSize maxW
              (segs.get ⟨idx, h⟩) idx (min (segs.get ⟨idx, h⟩).total maxW) heff
              (min (segs.get ⟨idx, h⟩).total maxW)
              (if idx = startIdx then startOff else 0) seen (by omega) e he
            intro fr hfr
            rw [hck] at hfr ⊢
            obtain ⟨hh, hr⟩ := hcont (min (segs.get ⟨idx, h⟩).total maxW) [] (by omega)
            cases fr with
            | zero => omega
            | succ fr =>
                simp only [runSegsF, segPages, eq_self_iff_true, if_true]
                rw [dif_pos h, if_neg hz]
                try dsimp only
                rw [if_pos (show (segPagesF b field pageSize maxW (segs.get ⟨idx, h⟩) idx
                  (min (segs.get ⟨idx, h⟩).total maxW) (min (segs.get ⟨idx, h⟩).total maxW)
                  e.ck.segOff []).raised = true from by rw [← hr]; exact hraised)]
                try dsimp only
                exact hh
          · rw [if_neg hraised] at he ⊢
            try dsimp only at he ⊢
            rw [List.mem_append] at he
            rcases he with he | he
            · obtain ⟨hck, hcont⟩ := segPagesF_decomp b field pageSize maxW
                (segs.get ⟨idx, h⟩) idx (min (segs.get ⟨idx, h⟩).total maxW) heff
                (min (segs.get ⟨idx, h⟩).total maxW)
                (if idx = startIdx then startOff else 0) seen (by omega) e he
              intro fr hfr
              rw [hck] at hfr ⊢
              obtain ⟨hh, hr⟩ := hcont (min (segs.get ⟨idx, h⟩).total maxW) [] (by omega)
              cases fr with
              | zero => omega
              | succ fr =>
                  simp only [runSegsF, segPages, eq_self_iff_true, if_true]
                  rw [dif_pos h, if_neg hz]
                  try dsimp only
                  rw [if_neg (show ¬(segPagesF b field pageSize maxW (segs.get ⟨idx, h⟩) idx
                    (min (segs.get ⟨idx, h⟩).total maxW) (min (segs.get ⟨idx, h⟩).total maxW)
                    e.ck.segOff []).raised = true from by rw [← hr]; exact hraised)]
                  try dsimp only
                  obtain ⟨hrest, -, -⟩ := runSegsF_obs_irrel b field pageSize maxW segs
                    fuel fr (idx + 1) startIdx startOff idx e.ck.segOff
                    (segPagesF b field pageSize maxW (segs.get ⟨idx, h⟩) idx
                      (min (segs.get ⟨idx, h⟩).total maxW) (min (segs.get ⟨idx, h⟩).total maxW)
                      (if idx = startIdx then startOff else 0) seen).seen
                    (segPagesF b field pageSize maxW (segs.get ⟨idx, h⟩) idx
                      (min (segs.get ⟨idx, h⟩).total maxW) (min (segs.get ⟨idx, h⟩).total maxW)
                      e.ck.segOff []).seen
                    (by omega) (by omega)
                    (by
                      intro j hj
                      have hne1 : j ≠ startIdx := by omega
                      have hne2 : j ≠ idx := by omega
                      rw [if_neg hne1, if_neg hne2])
                  rw [hh, hrest, List.append_assoc]
            · rw [List.mem_cons] at he
              rcases he with he | he
              · subst he
                intro fr hfr
                try dsimp only at hfr ⊢
                obtain ⟨hrest, -, -⟩ := runSegsF_obs_irrel b field pageSize maxW segs
                  fuel fr (idx + 1) startIdx startOff (idx + 1) 0
                  (segPagesF b field pageSize maxW (segs.get ⟨idx, h⟩) idx
                    (min (segs.get ⟨idx, h⟩).total maxW) (min (segs.get ⟨idx, h⟩).total maxW)
                    (if idx = startIdx then startOff else 0) seen).seen []
                  (by omega) (by omega)
                  (by
                    intro j hj
                    have hne : j ≠ startIdx := by omega
                    rw [if_neg hne]
                    split <;> rfl)
                rw [hrest]
              · rw [List.mem_map] at he
                obtain ⟨e0, he0, rfl⟩ := he
                intro fr hfr
                try dsimp only at hfr ⊢
                have := ih (idx + 1)
                  (segPagesF b field pageSize maxW (segs.get ⟨idx, h⟩) idx
                    (min (segs.get ⟨idx, h⟩).total maxW) (min (segs.get ⟨idx, h⟩).total maxW)
                    (if idx = startIdx then startOff else 0) seen).seen
                  (by omega) (by omega) e0 he0 fr hfr
                rw [this, List.append_assoc]
      · rw [dif_neg h] at he
        simp at he

/-- At every checkpoint dump of the paging loop, the identifiers written
so far are exactly the hit identifiers so far minus the seen-set the loop
was entered with. -/
theorem segPagesF_trace_ids (b : Backing) (field : String) (pageSize maxW : Nat)
    (seg : Segment) (idx eff : Nat) :
    ∀ (fuel offset : Nat) (seen : List String),
      ∀ e ∈ (segPagesF b field pageSize maxW seg idx eff fuel offset seen).trace,
        ∀ x, x ∈ e.outPre.map dedupId ↔ x ∈ e.hitsPre.map dedupId ∧ x ∉ seen := by
  intro fuel
  induction fuel with
  | zero => intro offset seen e he; simp [segPagesF] at he
  | succ fuel ih =>
      intro offset seen e he
      simp only [segPagesF] at he
      split at he
      · split at he
        · simp at he
        · split at he
          · simp at he
          · simp at he
          · split at he
            · simp at he
            · split at he
              · simp only [List.mem_singleton] at he
                subst he
                intro x
                exact writePage_out_mem _ seen x
              · rw [List.mem_cons] at he
                rcases he with he | he
                · subst he
                  intro x
                  exact writePage_out_mem _ seen x
                · rw [List.mem_map] at he
                  obtain ⟨e0, he0, rfl⟩ := he
                  intro x
                  have hIH := ih _ _ e0 he0 x
                  try dsimp only
                  simp only [List.map_append, List.mem_append]
                  rw [hIH, writePage_out_mem, writePage_seen_mem]
                  tauto
      · simp at he

/-- At every checkpoint dump of the segment walk, the identifiers written
so far are exactly the hit identifiers so far minus the initial
seen-set. -/
theorem runSegsF_trace_ids (b : Backing) (field : String) (pageSize maxW : Nat)
    (segs : List Segment) (startIdx startOff : Nat) :
    ∀ (fuel idx : Nat) (seen : List String),
      ∀ e ∈ (runSegsF b field pageSize maxW segs startIdx startOff fuel idx seen).trace,
        ∀ x, x ∈ e.outPre.map dedupId ↔ x ∈ e.hitsPre.map dedupId ∧ x ∉ seen := by
  intro fuel
  induction fuel with
  | zero => intro idx seen e he; simp [runSegsF] at he
  | succ fuel ih =>
      intro idx seen e he
      simp only [runSegsF] at he
      by_cases h : idx < segs.length
      · rw [dif_pos h] at he
        by_cases hz : (segs.get ⟨idx, h⟩).total = 0
        · rw [if_pos hz] at he
          try dsimp only at he
          rw [List.mem_cons] at he
          rcases he with he | he
          · subst he
            intro x
            simp
          · exact ih (idx + 1) seen e he
        · rw [if_neg hz] at he
          try dsimp only at he
          by_cases hraised :
              (segPages b field pageSize maxW (segs.get ⟨idx, h⟩) idx
                (min (segs.get ⟨idx, h⟩).total maxW)
                (if idx = startIdx then startOff else 0) seen).raised = true
          · rw [if_pos hraised] at he
            try dsimp only at he
            exact segPagesF_trace_ids b field pageSize maxW _ idx _ _ _ seen e he
          · rw [if_neg hraised] at he
            try dsimp only at he
            rw [List.mem_append] at he
            rcases he with he | he
            · exact segPagesF_trace_ids b field pageSize maxW _ idx _ _ _ seen e he
            · obtain ⟨so, ss, -⟩ := segPages_out_ids b field pageSize maxW
                (segs.get ⟨idx, h⟩) idx (min (segs.get ⟨idx, h⟩).total maxW)
                (if idx = startIdx then startOff else 0) seen
              rw [List.mem_cons] at he
              rcases he with he | he
              · subst he
                intro x
                exact so x
              · rw [List.mem_map] at he
                obtain ⟨e0, he0, rfl⟩ := he
                intro x
                have hIH := ih (idx + 1) _ e0 he0 x
                try dsimp only
                simp only [List.map_append, List.mem_append]
                rw [hIH, so x, ss x]
                tauto
      · rw [dif_neg h] at he
        simp at he

/-! ## C2: crash/resume versus an uninterrupted segmented run -/

/-- Two one-record segments whose records are distinct but share the
identifier "X": the backing answers segment A's query with the first and
every other query with the second. -/
def exBackingDup : Backing := fun req =>
  if req.q = "identifier:A*" then ApiResp.ok [⟨some "X", none, 0⟩] none
  else ApiResp.ok [⟨some "X", none, 1⟩] none

def exSegsDup : List Segment := [⟨"A", 1, none⟩, ⟨"B", 1, none⟩]

/-- C2 (counterexample): the claim's "no record identifier appears twice
in the log" fails.  On backing data where segments A and B each return
one record with identifier "X", the uninterrupted run writes "X" once
(the second record is skipped as a duplicate), but a run that crashes
after persisting the page that completes segment A (checkpoint
`(segment_index 1, segment_offset 0)`, durable log holding the first
record) and then resumes produces a combined log whose identifier list
is ["X", "X"] — the in-memory deduplicator is rebuilt empty on resume. -/
theorem crash_resume_duplicate_counterexample :
    ((⟨⟨1, 0⟩, [⟨some "X", none, 0⟩], [⟨some "X", none, 0⟩]⟩ : TraceEntry) ∈
      (runSegmented exBackingDup "identifier" 5 10 exSegsDup ⟨0, 0⟩).trace) ∧
    (runSegmented exBackingDup "identifier" 5 10 exSegsDup ⟨0, 0⟩).out.map dedupId = ["X"] ∧
    ((([(⟨some "X", none, 0⟩ : Rec)]) ++
        (runSegmented exBackingDup "identifier" 5 10 exSegsDup ⟨1, 0⟩).out).map dedupId) =
      ["X", "X"] ∧
    ¬ ((([(⟨some "X", none, 0⟩ : Rec)]) ++
        (runSegmented exBackingDup "identifier" 5 10 exSegsDup ⟨1, 0⟩).out).map dedupId).Nodup := by
  refine ⟨?_, ?_, ?_, ?_⟩ <;> decide

/-- C2 (amended): for any fixed backing data, crash the segmented fetch
after any persisted page (any entry of the checkpoint trace of the
uninterrupted run from `(0,0)`), keep the records durably written up to
that point, and run a fresh segmented fetch from the persisted
checkpoint.  Then the combined log carries exactly the same set of
record identifiers as the uninterrupted run — no identifier is missing
and none beyond them appears (in particular no capped/shortfall caveat is
needed at the identifier level) — and within each single run identifiers
are pairwise distinct; but an identifier already written before the
crash can be written again by the resumed run, because the deduplicator
is in-memory and per-run (see the counterexample). -/
theorem crash_resume_same_id_set (b : Backing) (field : String) (pageSize maxW : Nat)
    (segs0 : List Segment) (e : TraceEntry)
    (he : e ∈ (runSegmented b field pageSize maxW segs0 ⟨0, 0⟩).trace) :
    (∀ x,
      x ∈ (e.outPre ++ (runSegmented b field pageSize maxW segs0 e.ck).out).map dedupId ↔
        x ∈ (runSegmented b field pageSize maxW segs0 ⟨0, 0⟩).out.map dedupId) ∧
    ((runSegmented b field pageSize maxW segs0 ⟨0, 0⟩).out.map dedupId).Nodup ∧
    ((runSegmented b field pageSize maxW segs0 e.ck).out.map dedupId).Nodup := by
  simp only [runSegmented] at he ⊢
  set segs := if segs0.isEmpty then [⟨"", 0, none⟩] else segs0 with hsegs
  have hdec := runSegsF_decomp b field pageSize maxW segs 0 0 segs.length 0 []
    (by omega) (by omega) e he segs.length (by omega)
  obtain ⟨fo, -, fn⟩ := runSegsF_out_ids b field pageSize maxW segs 0 0 segs.length 0 []
  obtain ⟨ro, -, rn⟩ := runSegsF_out_ids b field pageSize maxW segs e.ck.segIdx e.ck.segOff
    segs.length e.ck.segIdx []
  have htr := runSegsF_trace_ids b field pageSize maxW segs 0 0 segs.length 0 [] e he
  refine ⟨?_, fn, rn⟩
  intro x
  rw [fo x]
  simp only [List.map_append, List.mem_append]
  rw [htr x, ro x, hdec]
  simp only [List.map_append, List.mem_append, List.not_mem_nil]
  tauto

/-- Witness for the amended C2 theorem at the concrete crash scenario of
the counterexample: the identifier "X" is in the combined log iff it is
in the uninterrupted log. -/
theorem crash_resume_same_id_set_witness :
    ((⟨⟨1, 0⟩, [⟨some "X", none, 0⟩], [⟨some "X", none, 0⟩]⟩ : TraceEntry) ∈
      (runSegmented exBackingDup "identifier" 5 10 exSegsDup ⟨0, 0⟩).trace) ∧
    ("X" ∈ ((⟨⟨1, 0⟩, [⟨some "X", none, 0⟩], [⟨some "X", none, 0⟩]⟩ : TraceEntry).outPre ++
        (runSegmented exBackingDup "identifier" 5 10 exSegsDup ⟨1, 0⟩).out).map dedupId ↔
      "X" ∈ (runSegmented exBackingDup "identifier" 5 10 exSegsDup ⟨0, 0⟩).out.map dedupId) :=
  ⟨by decide,
   (crash_resume_same_id_set exBackingDup "identifier" 5 10 exSegsDup
     ⟨⟨1, 0⟩, [⟨some "X", none, 0⟩], [⟨some "X", none, 0⟩]⟩ (by decide)).1 "X"⟩

/-! ## Segment planner (`compute_segments`, `cli.py` lines 371-706) -/

/-- The count endpoint as seen through `query_total`: a query string maps
to a count, or to an exception (`Except.error`). -/
def CountFn := String → Except Unit Nat

/-- A worklist node of the prefix expansion: `(prefix, count, depth)`. -/
structure PNode where
  pfx : String
  cnt : Nat
  depth : Nat
deriving DecidableEq, Repr

/-- Warnings appended to the planner's `warnings` list:
`max_depth_exceeded` and `no_children_found`. -/
inductive PWarn where
  | maxDepthExceeded (pfx : String) (depth recordCount safeLimit maxLen : Nat)
  | noChildrenFound (pfx : String) (depth recordCount safeLimit : Nat)
deriving DecidableEq, Repr

/-- Ghost record of one prefix-count query: the root query, a child
prefix query from the main expansion, or a wildcard-suffix probe for a
DRYAD/DOI node. -/
inductive QTag where
  | root
  | child (t : String)
  | wild (parent : String) (c : Char)
deriving DecidableEq, Repr

/-- The prefix a recorded count query asks about. -/
def QTag.target : QTag → String
  | .root => ""
  | .child t => t
  | .wild p c => p ++ "." ++ String.mk [c]

/-- State threaded through the planner's worklist loop.  `popped` is a
ghost trace of processed nodes, `queried` the ghost trace of prefix-count
queries, `fb` the trace of date/name fallback query strings. -/
structure LoopSt where
  pending : List PNode
  seen : List String
  segments : List Segment
  warns : List PWarn
  queried : List QTag
  fb : List String
  popped : List PNode
deriving DecidableEq, Repr

/-- Working state of one charset scan (main child expansion or wildcard
probing). -/
structure ScanSt where
  pending : List PNode
  seen : List String
  queried : List QTag
  found : Bool
deriving DecidableEq, Repr

/-- The per-character child expansion (`cli.py` lines 450-478): skip
seen children, query the rest, mark them seen on success and on failure
alike, and enqueue nonzero children one level deeper. -/
def childScan (countQ : CountFn) (field : String) (n : PNode) :
    List Char → ScanSt → ScanSt
  | [], st => st
  | c :: cs, st =>
      let child := n.pfx.push c
      if child ∈ st.seen then childScan countQ field n cs st
      else
        let st1 : ScanSt := { st with queried := st.queried ++ [QTag.child child] }
        match countQ (buildQuery child field none) with
        | .error _ => childScan countQ field n cs { st1 with seen := child :: st1.seen }
        | .ok t =>
            if t ≠ 0 then
              childScan countQ field n cs
                { st1 with seen := child :: st1.seen,
                           pending := st1.pending ++ [⟨child, t, n.depth + 1⟩],
                           found := true }
            else childScan countQ field n cs { st1 with seen := child :: st1.seen }

/-- The wildcard-suffix probing for DRYAD/DOI prefixes (`cli.py` lines
647-669): query `field:*prefix.c*` for every charset character (with no
seen-guard on the query itself), and enqueue unseen nonzero targets. -/
def wildScan (countQ : CountFn) (field : String) (n : PNode) :
    List Char → ScanSt → ScanSt
  | [], st => st
  | c :: cs, st =>
      let wq := field ++ ":*" ++ pyLower n.pfx ++ "." ++ String.mk [c] ++ "*"
      let st1 : ScanSt := { st with queried := st.queried ++ [QTag.wild n.pfx c] }
      match countQ wq with
      | .error _ => wildScan countQ field n cs st1
      | .ok t =>
          if t ≠ 0 then
            let wp := n.pfx ++ "." ++ String.mk [c]
            if wp ∈ st1.seen then wildScan countQ field n cs { st1 with found := true }
            else
              wildScan countQ field n cs
                { st1 with seen := wp :: st1.seen,
                           pending := st1.pending ++ [⟨wp, t, n.depth + 1⟩],
                           found := true }
          else wildScan countQ field n cs st1

/-- `range(2010, 2026)` of the date fallback. -/
def yearsList : List Nat := List.range' 2010 16

/-- `f"{month:02d}"`. -/
def mm (m : Nat) : String := if m < 10 then "0" ++ toString m else toString m

/-- Probe one year of the date fallback (`cli.py` lines 491-529): try
`date:YEAR*`, then `dateModified:YEAR*`, then `datePublished:YEAR*`;
return the first nonzero count with the query that produced it; an
exception skips the whole year. -/
def dateYearProbe (countQ : CountFn) (year : Nat) (fb : List String) :
    List String × Option (Nat × String) :=
  let q1 := "date:" ++ toString year ++ "*"
  let fb1 := fb ++ [q1]
  match countQ q1 with
  | .error _ => (fb1, none)
  | .ok t1 =>
      if t1 = 0 then
        let q2 := "dateModified:" ++ toString year ++ "*"
        let fb2 := fb1 ++ [q2]
        match countQ q2 with
        | .error _ => (fb2, none)
        | .ok t2 =>
            if t2 = 0 then
              let q3 := "datePublished:" ++ toString year ++ "*"
              let fb3 := fb2 ++ [q3]
              match countQ q3 with
              | .error _ => (fb3, none)
              | .ok t3 => if 0 < t3 then (fb3, some (t3, q3)) else (fb3, none)
            else (fb2, some (t2, q2))
      else (fb1, some (t1, q1))

/-- The year loop of the date fallback. -/
def dateScan (countQ : CountFn) :
    List Nat → List Segment → List String → Bool → List Segment × List String × Bool
  | [], segs, fb, found => (segs, fb, found)
  | y :: ys, segs, fb, found =>
      let pr := dateYearProbe countQ y fb
      match pr.2 with
      | none => dateScan countQ ys segs pr.1 found
      | some tq =>
          dateScan countQ ys
            (segs ++ [⟨"DATE_" ++ toString y, tq.1, some tq.2⟩]) pr.1 true

/-- Month sub-segmentation for an oversized year (`cli.py` 542-559). -/
def monthScan (countQ : CountFn) (year : String) :
    List Nat → List Segment → List String → Bool → List Segment × List String × Bool
  | [], acc, fb, found => (acc, fb, found)
  | m :: ms, acc, fb, found =>
      let q := "date:" ++ year ++ "-" ++ mm m ++ "*"
      let fb1 := fb ++ [q]
      match countQ q with
      | .error _ => monthScan countQ year ms acc fb1 found
      | .ok t =>
          if 0 < t then
            monthScan countQ year ms
              (acc ++ [⟨"DATE_" ++ year ++ "_" ++ mm m, t, some q⟩]) fb1 true
          else monthScan countQ year ms acc fb1 found

/-- Finalize date segments (`cli.py` 533-566): keep small years, split
oversized years by month, cap a year whose months yield nothing. -/
def dateFinalize (countQ : CountFn) (safeLimit : Nat) :
    List Segment → List Segment → List String → List Segment × List String
  | [], final, fb => (final, fb)
  | seg :: rest, final, fb =>
      if seg.total ≤ safeLimit then
        dateFinalize countQ safeLimit rest (final ++ [seg]) fb
      else
        let year := pyReplace seg.pfx "DATE_" ""
        let r := monthScan countQ year (List.range' 1 12) [] fb false
        if r.2.2 then dateFinalize countQ safeLimit rest (final ++ r.1) r.2.1
        else dateFinalize countQ safeLimit rest (final ++ [⟨seg.pfx, safeLimit, seg.wq⟩]) r.2.1

/-- First-character scan of the name fallback (`cli.py` 580-598). -/
def nameScan (countQ : CountFn) :
    List Char → List Segment → List String → Bool → List Segment × List String × Bool
  | [], segs, fb, found => (segs, fb, found)
  | c :: cs, segs, fb, found =>
      let q := "name:" ++ String.mk [c] ++ "*"
      let fb1 := fb ++ [q]
      match countQ q with
      | .error _ => nameScan countQ cs segs fb1 found
      | .ok t =>
          if 0 < t then
            nameScan countQ cs
              (segs ++ [⟨"NAME_" ++ pyUpper (String.mk [c]), t, some q⟩]) fb1 true
          else nameScan countQ cs segs fb1 found

/-- Second-character sub-scan for an oversized name bucket
(`cli.py` 610-627). -/
def nameSubScan (countQ : CountFn) (pc : String) :
    List Char → List Segment → List String → Bool → List Segment × List String × Bool
  | [], acc, fb, found => (acc, fb, found)
  | c2 :: cs, acc, fb, found =>
      let q := "name:" ++ pyLower pc ++ String.mk [c2] ++ "*"
      let fb1 := fb ++ [q]
      match countQ q with
      | .error _ => nameSubScan countQ pc cs acc fb1 found
      | .ok t =>
          if 0 < t then
            nameSubScan countQ pc cs
              (acc ++ [⟨"NAME_" ++ pc ++ pyUpper (String.mk [c2]), t, some q⟩]) fb1 true
          else nameSubScan countQ pc cs acc fb1 found

/-- Finalize name segments (`cli.py` 601-638). -/
def nameFinalize (countQ : CountFn) (safeLimit : Nat) (charset : List Char) :
    List Segment → List Segment → List String → List Segment × List String
  | [], final, fb => (final, fb)
  | seg :: rest, final, fb =>
      if seg.total ≤ safeLimit then
        nameFinalize countQ safeLimit charset rest (final ++ [seg]) fb
      else
        let pc := pyReplace seg.pfx "NAME_" ""
        let r := nameSubScan countQ pc charset [] fb false
        if r.2.2 then nameFinalize countQ safeLimit charset rest (final ++ r.1) r.2.1
        else nameFinalize countQ safeLimit charset rest (final ++ [⟨seg.pfx, safeLimit, seg.wq⟩]) r.2.1

/-- The DRYAD/DOI wildcard attempt followed by the capped-segment
fallback (`cli.py` 643-687), entered when sub-segmentation found no
children for an over-limit node. -/
def wildcardOrCap (countQ : CountFn) (field charset : String) (maxW maxLen : Nat)
    (n : PNode) (st : LoopSt) : LoopSt :=
  let safeLimit := maxW - 1
  if (pyUpper n.pfx = "DRYAD" ∨ pyUpper n.pfx = "DOI") ∧ n.depth < maxLen then
    let ws := wildScan countQ field n charset.data ⟨st.pending, st.seen, st.queried, false⟩
    let st1 := { st with pending := ws.pending, seen := ws.seen, queried := ws.queried }
    if ws.found then st1
    else
      { st1 with warns := st1.warns ++ [.noChildrenFound n.pfx n.depth n.cnt safeLimit],
                 segments := st1.segments ++ [⟨n.pfx, safeLimit, none⟩] }
  else
    { st with warns := st.warns ++ [.noChildrenFound n.pfx n.depth n.cnt safeLimit],
              segments := st.segments ++ [⟨n.pfx, safeLimit, none⟩] }

/-- The date-fallback block and the name-fallback block nested inside
it (`cli.py` 484-638), entered on a childless over-limit empty prefix
with the `identifier` field.  `Sum.inr` is an early `return` from
`compute_segments` with the fallback's field label; `Sum.inl` means the
fallbacks produced nothing and control falls through to the wildcard
attempt.  Only the fallback-query trace `fb` of the state changes. -/
def dateNamePart (countQ : CountFn) (charset : String) (safeLimit : Nat)
    (st : LoopSt) : LoopSt ⊕ (List Segment × String × LoopSt) :=
  let ds := dateScan countQ yearsList [] st.fb false
  let st2 := { st with fb := ds.2.1 }
  if ds.2.2 = true ∧ ds.1 ≠ [] then
    let fin := dateFinalize countQ safeLimit ds.1 [] st2.fb
    let st3 := { st2 with fb := fin.2 }
    if fin.1 ≠ [] then .inr (fin.1, "date", st3) else .inl st3
  else if ds.2.2 = false then
    let ns := nameScan countQ charset.data [] st2.fb false
    let st3 := { st2 with fb := ns.2.1 }
    if ns.2.2 = true ∧ ns.1 ≠ [] then
      let fin := nameFinalize countQ safeLimit charset.data ns.1 [] st3.fb
      let st4 := { st3 with fb := fin.2 }
      if fin.1 ≠ [] then .inr (fin.1, "name", st4) else .inl st4
    else .inl st3
  else .inl st2

/-- Processing of one popped worklist node: discard zero counts, emit
small counts as leaves, cap-and-warn at maximum depth, otherwise expand
by charset; on a childless over-limit empty prefix (with the
`identifier` field) try the date fallback then the name fallback, either
of which may return an entire segmentation early; a childless over-limit
node otherwise goes through the wildcard attempt or is capped.  `Sum.inr`
is an early `return` from `compute_segments` with the fallback field. -/
def processNode (countQ : CountFn) (field charset : String) (maxW maxLen : Nat)
    (n : PNode) (st : LoopSt) : LoopSt ⊕ (List Segment × String × LoopSt) :=
  let safeLimit := maxW - 1
  if n.cnt = 0 then .inl st
  else if n.cnt ≤ safeLimit then
    .inl { st with segments := st.segments ++ [⟨n.pfx, n.cnt, none⟩] }
  else if maxLen ≤ n.depth then
    .inl { st with
      warns :=
        if safeLimit < n.cnt then
          st.warns ++ [.maxDepthExceeded n.pfx n.depth n.cnt safeLimit maxLen]
        else st.warns,
      segments := st.segments ++ [⟨n.pfx, safeLimit, none⟩] }
  else
    let sc := childScan countQ field n charset.data ⟨st.pending, st.seen, st.queried, false⟩
    let st1 := { st with pending := sc.pending, seen := sc.seen, queried := sc.queried }
    match (if sc.found = false ∧ n.pfx = "" ∧ safeLimit < n.cnt ∧ field = "identifier"
           then dateNamePart countQ charset safeLimit st1 else .inl st1) with
    | .inr r => .inr r
    | .inl st2 =>
        if sc.found = false ∧ safeLimit < n.cnt then
          .inl (wildcardOrCap countQ field charset maxW maxLen n st2)
        else .inl st2

/-- Result of the planner's worklist loop: either the loop ran to
completion (or out of fuel, `finished = false`), or a fallback returned a
segmentation early with its own field label. -/
inductive LoopRes where
  | normal (st : LoopSt) (finished : Bool)
  | early (segments : List Segment) (fieldUsed : String) (st : LoopSt)
deriving DecidableEq, Repr

/-- The planner's FIFO worklist loop (`while pending:`), fuelled; the
worklist is finite in practice (prefixes are seen-guarded and bounded in
depth) and every property proved holds for every fuel. -/
def plannerLoop (countQ : CountFn) (field charset : String) (maxW maxLen : Nat) :
    Nat → LoopSt → LoopRes
  | 0, st => .normal st false
  | fuel + 1, st =>
      match st.pending with
      | [] => .normal st true
      | n :: rest =>
          match processNode countQ field charset maxW maxLen n
              { st with pending := rest, popped := st.popped ++ [n] } with
          | .inl st1 => plannerLoop countQ field charset maxW maxLen fuel st1
          | .inr r => .early r.1 r.2.1 r.2.2

/-- Extract the loop state of a loop result. -/
def loopStOf : LoopRes → LoopSt
  | .normal st _ => st
  | .early _ _ st => st

/-- Final planner outcome. -/
structure PlanRes where
  segments : List Segment
  fieldUsed : String
  warns : List PWarn
  queried : List QTag
  fb : List String
  popped : List PNode
  finished : Bool
deriving DecidableEq, Repr

/-- `compute_segments`: query the root total (a failure here propagates,
hence `none`); a total within the window yields the single full-range
segment; otherwise run the worklist seeded with `("", total, 0)` and a
seen-set holding the empty prefix, then sort the emitted segments by
prefix (a stable sort, modeled by insertion sort) and fall back to a
single full-range segment if none were emitted.  An early fallback
return skips the sort, as in the source. -/
def computeSegments (countQ : CountFn) (field charset : String)
    (maxW maxLen fuel : Nat) : Option PlanRes :=
  match countQ (buildQuery "" field none) with
  | .error _ => none
  | .ok total =>
      if total ≤ maxW then some ⟨[⟨"", total, none⟩], field, [], [.root], [], [], true⟩
      else
        let st0 : LoopSt := ⟨[⟨"", total, 0⟩], [""], [], [], [QTag.root], [], []⟩
        match plannerLoop countQ field charset maxW maxLen fuel st0 with
        | .early segs fld st => some ⟨segs, fld, st.warns, st.queried, st.fb, st.popped, true⟩
        | .normal st fin =>
            let sorted := st.segments.insertionSort (fun a b => a.pfx ≤ b.pfx)
            some ⟨if sorted.isEmpty then [⟨"", total, none⟩] else sorted, field,
                  st.warns, st.queried, st.fb, st.popped, fin⟩

/-! ## C7: depth-capped emission -/

lemma wildcardOrCap_spec (countQ : CountFn) (field charset : String) (maxW maxLen : Nat)
    (n : PNode) (st : LoopSt) :
    (wildcardOrCap countQ field charset maxW maxLen n st).popped = st.popped ∧
    (∀ s ∈ st.segments, s ∈ (wildcardOrCap countQ field charset maxW maxLen n st).segments) ∧
    (∀ w ∈ st.warns, w ∈ (wildcardOrCap countQ field charset maxW maxLen n st).warns) := by
  simp only [wildcardOrCap]
  split
  · split
    · exact ⟨rfl, fun s hs => hs, fun w hw => hw⟩
    · exact ⟨rfl, fun s hs => List.mem_append_left _ hs,
        fun w hw => List.mem_append_left _ hw⟩
  · exact ⟨rfl, fun s hs => List.mem_append_left _ hs,
      fun w hw => List.mem_append_left _ hw⟩

lemma dateNamePart_inl_spec (countQ : CountFn) (charset : String) (safeLimit : Nat)
    (st st1 : LoopSt) (h : dateNamePart countQ charset safeLimit st = Sum.inl st1) :
    ∃ fb1, st1 = { st with fb := fb1 } := by
  simp only [dateNamePart] at h
  repeat' split at h
  all_goals first
    | exact Sum.noConfusion h
    | (cases h; exact ⟨_, rfl⟩)

lemma processNode_inl_spec (countQ : CountFn) (field charset : String) (maxW maxLen : Nat)
    (n : PNode) (st st1 : LoopSt)
    (h : processNode countQ field charset maxW maxLen n st = Sum.inl st1) :
    st1.popped = st.popped ∧
    (∀ s ∈ st.segments, s ∈ st1.segments) ∧
    (∀ w ∈ st.warns, w ∈ st1.warns) := by
  simp only [processNode] at h
  split at h
  · cases h; exact ⟨rfl, fun s hs => hs, fun w hw => hw⟩
  · split at h
    · cases h
      exact ⟨rfl, fun s hs => List.mem_append_left _ hs, fun w hw => hw⟩
    · split at h
      · split at h
        · cases h
          exact ⟨rfl, fun s hs => List.mem_append_left _ hs,
            fun w hw => List.mem_append_left _ hw⟩
        · cases h
          exact ⟨rfl, fun s hs => List.mem_append_left _ hs, fun w hw => hw⟩
      · split at h
        next r heq => exact Sum.noConfusion h
        next st2 heq =>
          have hst2 : st2.popped = st.popped ∧ st2.segments = st.segments ∧
              st2.warns = st.warns := by
            split at heq
            · obtain ⟨fb1, rfl⟩ := dateNamePart_inl_spec _ _ _ _ _ heq
              exact ⟨rfl, rfl, rfl⟩
            · cases heq; exact ⟨rfl, rfl, rfl⟩
          obtain ⟨hp2, hs2, hw2⟩ := hst2
          split at h
          · cases h
            obtain ⟨hwp, hws, hww⟩ :=
              wildcardOrCap_spec countQ field charset maxW maxLen n st2
            refine ⟨hwp.trans hp2, fun s hs => hws s ?_, fun w hw => hww w ?_⟩
            · rw [hs2]; exact hs
            · rw [hw2]; exact hw
          · cases h
            exact ⟨hp2, fun s hs => by rw [hs2]; exact hs, fun w hw => by rw [hw2]; exact hw⟩

lemma processNode_depth_cap (countQ : CountFn) (field charset : String) (maxW maxLen : Nat)
    (n : PNode) (st : LoopSt) (hcnt : maxW - 1 < n.cnt) (hdepth : maxLen ≤ n.depth) :
    processNode countQ field charset maxW maxLen n st =
      Sum.inl { st with
        warns := st.warns ++ [PWarn.maxDepthExceeded n.pfx n.depth n.cnt (maxW - 1) maxLen],
        segments := st.segments ++ [⟨n.pfx, maxW - 1, none⟩] } := by
  simp only [processNode]
  rw [if_neg (by omega : ¬n.cnt = 0), if_neg (by omega : ¬n.cnt ≤ maxW - 1),
    if_pos hdepth, if_pos hcnt]

lemma plannerLoop_normal_mono (countQ : CountFn) (field charset : String)
    (maxW maxLen : Nat) :
    ∀ (fuel : Nat) (st0 st1 : LoopSt) (fin : Bool),
      plannerLoop countQ field charset maxW maxLen fuel st0 = .normal st1 fin →
      (∀ s ∈ st0.segments, s ∈ st1.segments) ∧ (∀ w ∈ st0.warns, w ∈ st1.warns) := by
  intro fuel
  induction fuel with
  | zero =>
      intro st0 st1 fin h
      simp only [plannerLoop] at h
      cases h
      exact ⟨fun s hs => hs, fun w hw => hw⟩
  | succ fuel ih =>
      intro st0 st1 fin h
      simp only [plannerLoop] at h
      cases hp : st0.pending with
      | nil =>
          simp only [hp] at h
          cases h
          exact ⟨fun s hs => hs, fun w hw => hw⟩
      | cons n rest =>
          simp only [hp] at h
          cases hpn : processNode countQ field charset maxW maxLen n
              { st0 with pending := rest, popped := st0.popped ++ [n] } with
          | inl sA =>
              simp only [hpn] at h
              obtain ⟨-, hs1, hw1⟩ :=
                processNode_inl_spec countQ field charset maxW maxLen n _ _ hpn
              obtain ⟨hs2, hw2⟩ := ih sA st1 fin h
              exact ⟨fun s hs => hs2 s (hs1 s hs), fun w hw => hw2 w (hw1 w hw)⟩
          | inr r =>
              simp only [hpn] at h
              exact LoopRes.noConfusion h

/-- C7: in the segment planner's worklist loop, every node processed
during the run whose count exceeds `safe_limit = max_window - 1` and
whose depth has reached `max_prefix_length` is emitted as a leaf segment
with total capped at `safe_limit`, together with a `max_depth_exceeded`
warning recording its prefix, depth and true count; in particular with
count 12000 and `max_window` 10000 the emitted total is 9999 and the
recorded shortfall is 2001 records. -/
theorem planner_depth_cap_emits (countQ : CountFn) (field charset : String)
    (maxW maxLen fuel : Nat) (st0 st1 : LoopSt) (fin : Bool) (n : PNode)
    (hrun : plannerLoop countQ field charset maxW maxLen fuel st0 = .normal st1 fin)
    (hn : n ∈ st1.popped) (hnew : n ∉ st0.popped)
    (hcnt : maxW - 1 < n.cnt) (hdepth : maxLen ≤ n.depth) :
    (⟨n.pfx, maxW - 1, none⟩ : Segment) ∈ st1.segments ∧
    PWarn.maxDepthExceeded n.pfx n.depth n.cnt (maxW - 1) maxLen ∈ st1.warns ∧
    (n.cnt = 12000 → maxW = 10000 → maxW - 1 = 9999 ∧ n.cnt - (maxW - 1) = 2001) := by
  induction fuel generalizing st0 with
  | zero =>
      simp only [plannerLoop] at hrun
      cases hrun
      exact absurd hn hnew
  | succ fuel ih =>
      simp only [plannerLoop] at hrun
      cases hp : st0.pending with
      | nil =>
          simp only [hp] at hrun
          cases hrun
          exact absurd hn hnew
      | cons n0 rest =>
          simp only [hp] at hrun
          cases hpn : processNode countQ field charset maxW maxLen n0
              { st0 with pending := rest, popped := st0.popped ++ [n0] } with
          | inl sA =>
              simp only [hpn] at hrun
              by_cases he : n = n0
              · subst he
                have hx := (processNode_depth_cap countQ field charset maxW maxLen n
                  { st0 with pending := rest, popped := st0.popped ++ [n] }
                  hcnt hdepth).symm.trans hpn
                cases hx
                obtain ⟨hs2, hw2⟩ :=
                  plannerLoop_normal_mono countQ field charset maxW maxLen fuel _ st1 fin hrun
                refine ⟨hs2 _ ?_, hw2 _ ?_, fun h1 h2 => by omega⟩
                · exact List.mem_append_right _ (List.mem_singleton.mpr rfl)
                · exact List.mem_append_right _ (List.mem_singleton.mpr rfl)
              · have hpop : sA.popped = st0.popped ++ [n0] :=
                  (processNode_inl_spec countQ field charset maxW maxLen n0 _ _ hpn).1
                refine ih sA hrun ?_
                rw [hpop]
                intro hmem
                rcases List.mem_append.mp hmem with h1 | h1
                · exact hnew h1
                · exact he (List.mem_singleton.mp h1)
          | inr r =>
              simp only [hpn] at hrun
              exact LoopRes.noConfusion hrun

def c7CountQ : CountFn := fun q =>
  Except.ok (if q = "*" then 12000 else if q = "identifier:A*" then 12000 else 0)

def c7St0 : LoopSt := ⟨[⟨"", 12000, 0⟩], [""], [], [], [QTag.root], [], []⟩

def c7Res : LoopRes := plannerLoop c7CountQ "identifier" DEFAULT_SEGMENT_CHARSET 10000 1 3 c7St0

/-- Witness: a concrete planning run in which the prefix "A" holds 12000
records at the maximum depth 1; the run emits the capped segment
`("A", 9999)` and the corresponding warning. -/
theorem planner_depth_cap_emits_witness :
    c7Res = .normal (loopStOf c7Res) true ∧
    ((⟨"A", 9999, none⟩ : Segment) ∈ (loopStOf c7Res).segments ∧
     PWarn.maxDepthExceeded "A" 1 12000 9999 1 ∈ (loopStOf c7Res).warns) :=
  ⟨by decide, by
    have h := planner_depth_cap_emits c7CountQ "identifier" DEFAULT_SEGMENT_CHARSET
      10000 1 3 c7St0 (loopStOf c7Res) true ⟨"A", 12000, 1⟩ (by decide) (by decide)
      (by decide) (by decide) (by decide)
    exact ⟨h.1, h.2.1⟩⟩

/-! ## C8: planner query-trace and scenario machinery -/

lemma data_injective : ∀ {s t : String}, s.data = t.data → s = t := by
  intro s t h
  cases s
  cases t
  cases h
  rfl

lemma data_mk (l : List Char) : (String.mk l).data = l := rfl

lemma dot_data : ("." : String).data = ['.'] := rfl

lemma snoc_inj {α : Type} : ∀ {t1 t2 : List α} {c1 c2 : α},
    t1 ++ [c1] = t2 ++ [c2] → t1 = t2 ∧ c1 = c2 := by
  intro t1
  induction t1 with
  | nil =>
      intro t2 c1 c2 h
      cases t2 with
      | nil => simpa using h
      | cons b u => simp at h
  | cons a t ih =>
      intro t2 c1 c2 h
      cases t2 with
      | nil => simp at h
      | cons b u =>
          rw [List.cons_append, List.cons_append] at h
          injection h with h1 h2
          obtain ⟨h3, h4⟩ := ih h2
          exact ⟨by rw [h1, h3], h4⟩

lemma dot_split_inj : ∀ (l1 l2 r1 r2 : List Char), '.' ∉ l1 → '.' ∉ l2 →
    l1 ++ '.' :: r1 = l2 ++ '.' :: r2 → l1 = l2 ∧ r1 = r2 := by
  intro l1
  induction l1 with
  | nil =>
      intro l2 r1 r2 _ h2 h
      cases l2 with
      | nil =>
          injection h with _ h3
          exact ⟨rfl, h3⟩
      | cons b u =>
          injection h with h3 _
          apply absurd _ h2
          rw [← h3]
          exact List.mem_cons_self _ _
  | cons a t ih =>
      intro l2 r1 r2 h1 h2 h
      cases l2 with
      | nil =>
          injection h with h3 _
          apply absurd _ h1
          rw [h3]
          exact List.mem_cons_self _ _
      | cons b u =>
          injection h with h3 h4
          obtain ⟨h5, h6⟩ := ih u r1 r2 (fun hm => h1 (List.mem_cons_of_mem _ hm))
            (fun hm => h2 (List.mem_cons_of_mem _ hm)) h4
          exact ⟨by rw [h3, h5], h6⟩

lemma no_dot_of_upper (s : String) (h : pyUpper s = "DRYAD" ∨ pyUpper s = "DOI") :
    '.' ∉ s.data := by
  intro hd
  have hmem : '.' ∈ (pyUpper s).data := List.mem_map.mpr ⟨'.', hd, by decide⟩
  rcases h with h | h <;> rw [h] at hmem <;> exact absurd hmem (by decide)

lemma push_inj {x y : String} {c c' : Char} (h : x.push c = y.push c') :
    x = y ∧ c = c' := by
  have hd := congrArg String.data h
  rw [String.data_push, String.data_push] at hd
  obtain ⟨h1, h2⟩ := snoc_inj hd
  exact ⟨data_injective h1, h2⟩

lemma push_ne_empty (x : String) (c : Char) : x.push c ≠ "" := by
  intro h
  have hd := congrArg String.data h
  rw [String.data_push] at hd
  simp at hd

lemma wild_data (p : String) (c : Char) :
    (p ++ "." ++ String.mk [c]).data = p.data ++ '.' :: [c] := by
  rw [String.data_append, String.data_append, dot_data, data_mk, List.append_assoc]
  rfl

lemma wild_ne_empty (p : String) (c : Char) : p ++ "." ++ String.mk [c] ≠ "" := by
  intro h
  have hd := congrArg String.data h
  rw [wild_data] at hd
  simp at hd

lemma child_ne_wild (fullcs : List Char) (hdot : '.' ∉ fullcs)
    (x : String) (hx : x = "" ∨ ∃ t ch, ch ∈ fullcs ∧ x.data = t ++ [ch])
    (ch : Char) (p : String) (c : Char) :
    x.push ch ≠ p ++ "." ++ String.mk [c] := by
  intro he
  have hd := congrArg String.data he
  rw [String.data_push, wild_data] at hd
  have hd2 : x.data ++ [ch] = (p.data ++ ['.']) ++ [c] := by
    rw [List.append_assoc]
    exact hd
  obtain ⟨h1, -⟩ := snoc_inj hd2
  rcases hx with hx | ⟨t, ch', hch', hxd⟩
  · rw [hx] at h1
    simp at h1
  · rw [hxd] at h1
    obtain ⟨-, h3⟩ := snoc_inj h1
    rw [h3] at hch'
    exact hdot hch'

lemma wild_target_inj (p p' : String) (c c' : Char) (h1 : '.' ∉ p.data)
    (h2 : '.' ∉ p'.data)
    (he : p ++ "." ++ String.mk [c] = p' ++ "." ++ String.mk [c']) : p = p' ∧ c = c' := by
  have hd := congrArg String.data he
  rw [wild_data, wild_data] at hd
  obtain ⟨h3, h4⟩ := dot_split_inj p.data p'.data [c] [c'] h1 h2 hd
  refine ⟨data_injective h3, ?_⟩
  injection h4

/-- Invariant of the planner state threading the no-requery argument:
the ghost trace of prefix-count queries has pairwise-distinct target
prefixes, every child query target is in the seen set, every recorded
query and every seen element is structurally tied to a processed node,
processed and pending prefixes are pairwise distinct, and every node
prefix is either the root or ends in a charset character. -/
structure ScanInv (fullcs : List Char) (popped : List PNode) (seen : List String)
    (pending : List PNode) (queried : List QTag) : Prop where
  nodupT : (queried.map QTag.target).Nodup
  rootSeen : "" ∈ seen
  childSeen : ∀ t ∈ queried, ∀ s, t = QTag.child s → s ∈ seen
  childShape : ∀ t ∈ queried, ∀ s, t = QTag.child s →
      ∃ x, x ∈ popped ∧ ∃ ch, ch ∈ fullcs ∧ s = x.pfx.push ch
  wildShape : ∀ t ∈ queried, ∀ p c, t = QTag.wild p c →
      (∃ x, x ∈ popped ∧ x.pfx = p) ∧ c ∈ fullcs ∧ '.' ∉ p.data
  pfxNodup : ((popped ++ pending).map PNode.pfx).Nodup
  seenShape : ∀ s ∈ seen, s = "" ∨
      (∃ x, x ∈ popped ∧ ∃ ch, ch ∈ fullcs ∧ s = x.pfx.push ch) ∨
      (∃ x, x ∈ popped ∧ ∃ ch, ch ∈ fullcs ∧ '.' ∉ x.pfx.data ∧
        s = x.pfx ++ "." ++ String.mk [ch])
  nodeShape : ∀ x ∈ popped ++ pending, x.pfx = "" ∨
      ∃ t ch, ch ∈ fullcs ∧ x.pfx.data = t ++ [ch]
  nodesSeen : ∀ x ∈ popped ++ pending, x.pfx ∈ seen

lemma pfx_fresh_of_head {fullcs : List Char} {popped pending0 : List PNode}
    {seen : List String} {queried : List QTag} {n : PNode} {x : PNode}
    (inv : ScanInv fullcs popped seen (n :: pending0) queried)
    (hx : x ∈ popped) : x.pfx ≠ n.pfx := by
  intro he
  have hnd := inv.pfxNodup
  rw [List.map_append] at hnd
  have hdisj := List.disjoint_of_nodup_append hnd
  exact hdisj (List.mem_map_of_mem PNode.pfx hx)
    (by rw [he]; exact List.mem_map_of_mem PNode.pfx (List.mem_cons_self n pending0))

/-- No child of the node about to be expanded is in the seen set. -/
lemma fresh_children {fullcs : List Char} (hdot : '.' ∉ fullcs)
    {popped pending0 : List PNode} {seen : List String} {queried : List QTag} {n : PNode}
    (inv : ScanInv fullcs popped seen (n :: pending0) queried) :
    ∀ c : Char, n.pfx.push c ∉ seen := by
  intro c hmem
  rcases inv.seenShape _ hmem with h0 | ⟨x, hx, ch, hch, he⟩ | ⟨x, hx, ch, hch, hnd, he⟩
  · exact push_ne_empty _ _ h0
  · obtain ⟨h1, -⟩ := push_inj he.symm
    exact pfx_fresh_of_head inv hx (by rw [h1])
  · have hn := inv.nodeShape n (List.mem_append_right _ (List.mem_cons_self _ _))
    exact child_ne_wild fullcs hdot n.pfx hn c x.pfx ch he

/-- No wildcard probe for the prefix of the node about to be processed
has been recorded before. -/
lemma no_prior_wild {fullcs : List Char} {popped pending0 : List PNode}
    {seen : List String} {queried : List QTag} {n : PNode}
    (inv : ScanInv fullcs popped seen (n :: pending0) queried) :
    ∀ t ∈ queried, ∀ c, t ≠ QTag.wild n.pfx c := by
  intro t ht c he
  obtain ⟨⟨x, hx, hxp⟩, -, -⟩ := inv.wildShape t ht n.pfx c he
  exact pfx_fresh_of_head inv hx hxp

/-- Popping the head node preserves the invariant. -/
lemma ScanInv_shift {fullcs : List Char} {popped pending0 : List PNode}
    {seen : List String} {queried : List QTag} {n : PNode}
    (inv : ScanInv fullcs popped seen (n :: pending0) queried) :
    ScanInv fullcs (popped ++ [n]) seen pending0 queried := by
  have harr : (popped ++ [n]) ++ pending0 = popped ++ n :: pending0 := by
    rw [List.append_assoc]
    rfl
  refine ⟨inv.nodupT, inv.rootSeen, inv.childSeen, ?_, ?_, ?_, ?_, ?_, ?_⟩
  · intro t ht s hs
    obtain ⟨x, hx, hch⟩ := inv.childShape t ht s hs
    exact ⟨x, List.mem_append_left _ hx, hch⟩
  · intro t ht p c hc
    obtain ⟨⟨x, hx, hxp⟩, h2, h3⟩ := inv.wildShape t ht p c hc
    exact ⟨⟨x, List.mem_append_left _ hx, hxp⟩, h2, h3⟩
  · rw [harr]
    exact inv.pfxNodup
  · intro s hs
    rcases inv.seenShape s hs with h | ⟨x, hx, hr⟩ | ⟨x, hx, hr⟩
    · exact Or.inl h
    · exact Or.inr (Or.inl ⟨x, List.mem_append_left _ hx, hr⟩)
    · exact Or.inr (Or.inr ⟨x, List.mem_append_left _ hx, hr⟩)
  · intro x hx
    exact inv.nodeShape x (by rw [← harr]; exact hx)
  · intro x hx
    exact inv.nodesSeen x (by rw [← harr]; exact hx)

lemma child_target_fresh {fullcs : List Char} (hdot : '.' ∉ fullcs)
    {popped pending : List PNode} {seen : List String} {queried : List QTag}
    {n : PNode} (hn : n ∈ popped)
    (inv : ScanInv fullcs popped seen pending queried)
    {c : Char} (hm : n.pfx.push c ∉ seen) :
    ∀ t ∈ queried, QTag.target t ≠ n.pfx.push c := by
  intro t ht he
  cases t with
  | root => exact push_ne_empty _ _ he.symm
  | child s =>
      have hs := inv.childSeen _ ht s rfl
      rw [show s = QTag.target (QTag.child s) from rfl, he] at hs
      exact hm hs
  | wild p c' =>
      have hx := inv.nodeShape n (List.mem_append_left _ hn)
      exact child_ne_wild fullcs hdot n.pfx hx c p c' he.symm

lemma childStep_inv {fullcs : List Char} (hdot : '.' ∉ fullcs)
    {popped pending : List PNode} {seen : List String} {queried : List QTag}
    {n : PNode} (hn : n ∈ popped)
    {c : Char} (hc : c ∈ fullcs)
    (inv : ScanInv fullcs popped seen pending queried)
    (hm : n.pfx.push c ∉ seen)
    (tval : Nat) (K : List PNode)
    (hK : K = [] ∨ K = [⟨n.pfx.push c, tval, n.depth + 1⟩]) :
    ScanInv fullcs popped (n.pfx.push c :: seen) (pending ++ K)
      (queried ++ [QTag.child (n.pfx.push c)]) := by
  refine ⟨?_, List.mem_cons_of_mem _ inv.rootSeen, ?_, ?_, ?_, ?_, ?_, ?_, ?_⟩
  · rw [List.map_append]
    refine List.Nodup.append inv.nodupT (List.nodup_singleton _) ?_
    intro a ha hb
    obtain ⟨t, ht, hta⟩ := List.mem_map.mp ha
    rw [List.map_singleton, List.mem_singleton] at hb
    exact child_target_fresh hdot hn inv hm t ht (by rw [hta, hb]; rfl)
  · intro t ht s hs
    rcases List.mem_append.mp ht with h | h
    · exact List.mem_cons_of_mem _ (inv.childSeen t h s hs)
    · rw [List.mem_singleton] at h
      rw [h] at hs
      injection hs with hs1
      rw [← hs1]
      exact List.mem_cons_self _ _
  · intro t ht s hs
    rcases List.mem_append.mp ht with h | h
    · obtain ⟨x, hx, hr⟩ := inv.childShape t h s hs
      exact ⟨x, hx, hr⟩
    · rw [List.mem_singleton] at h
      rw [h] at hs
      injection hs with hs1
      exact ⟨n, hn, c, hc, hs1.symm⟩
  · intro t ht p c' hw
    rcases List.mem_append.mp ht with h | h
    · exact inv.wildShape t h p c' hw
    · rw [List.mem_singleton] at h
      rw [h] at hw
      exact QTag.noConfusion hw
  · rw [← List.append_assoc, List.map_append]
    refine List.Nodup.append inv.pfxNodup ?_ ?_
    · rcases hK with h | h <;> rw [h]
      · exact List.nodup_nil
      · exact List.nodup_singleton _
    · intro a ha hb
      obtain ⟨x, hx, hxa⟩ := List.mem_map.mp ha
      obtain ⟨y, hy, hya⟩ := List.mem_map.mp hb
      rcases hK with h | h
      · rw [h] at hy
        exact absurd hy (List.not_mem_nil y)
      · rw [h, List.mem_singleton] at hy
        apply hm
        rw [← show y.pfx = n.pfx.push c from by rw [hy], hya, ← hxa]
        exact inv.nodesSeen x hx
  · intro s hs
    rcases List.mem_cons.mp hs with h | h
    · exact Or.inr (Or.inl ⟨n, hn, c, hc, h⟩)
    · exact (inv.seenShape s h).imp id id
  · intro x hx
    rw [← List.append_assoc] at hx
    rcases List.mem_append.mp hx with h | h
    · exact inv.nodeShape x h
    · rcases hK with hk | hk
      · rw [hk] at h
        exact absurd h (List.not_mem_nil x)
      · rw [hk, List.mem_singleton] at h
        refine Or.inr ⟨n.pfx.data, c, hc, ?_⟩
        rw [h]
        exact String.data_push _ _
  · intro x hx
    rw [← List.append_assoc] at hx
    rcases List.mem_append.mp hx with h | h
    · exact List.mem_cons_of_mem _ (inv.nodesSeen x h)
    · rcases hK with hk | hk
      · rw [hk] at h
        exact absurd h (List.not_mem_nil x)
      · rw [hk, List.mem_singleton] at h
        rw [h]
        exact List.mem_cons_self _ _

lemma childScan_pres (countQ : CountFn) (field : String) {fullcs : List Char}
    (hdot : '.' ∉ fullcs) {popped : List PNode} {n : PNode} (hn : n ∈ popped) :
    ∀ (cs : List Char) (st : ScanSt), (∀ c ∈ cs, c ∈ fullcs) →
      ScanInv fullcs popped st.seen st.pending st.queried →
      ScanInv fullcs popped (childScan countQ field n cs st).seen
        (childScan countQ field n cs st).pending
        (childScan countQ field n cs st).queried := by
  intro cs
  induction cs with
  | nil => intro st _ inv; exact inv
  | cons c cs ih =>
      intro st hsub inv
      have hc : c ∈ fullcs := hsub c (List.mem_cons_self _ _)
      have hsub' : ∀ a ∈ cs, a ∈ fullcs := fun a ha => hsub a (List.mem_cons_of_mem _ ha)
      simp only [childScan]
      by_cases hm : n.pfx.push c ∈ st.seen
      · rw [if_pos hm]
        exact ih st hsub' inv
      · rw [if_neg hm]
        cases hq : countQ (buildQuery (n.pfx.push c) field none) with
        | error e =>
            have hstep := childStep_inv hdot hn hc inv hm 0 [] (Or.inl rfl)
            rw [List.append_nil] at hstep
            exact ih _ hsub' hstep
        | ok t =>
            dsimp only
            by_cases ht : t ≠ 0
            · rw [if_pos ht]
              exact ih _ hsub'
                (childStep_inv hdot hn hc inv hm t _ (Or.inr rfl))
            · rw [if_neg ht]
              have hstep := childStep_inv hdot hn hc inv hm 0 [] (Or.inl rfl)
              rw [List.append_nil] at hstep
              exact ih _ hsub' hstep

lemma wild_target_fresh {fullcs : List Char} (hdot : '.' ∉ fullcs)
    {popped pending : List PNode} {seen : List String} {queried : List QTag}
    {n : PNode} (hn : n ∈ popped) (hnp : '.' ∉ n.pfx.data)
    (inv : ScanInv fullcs popped seen pending queried)
    {c : Char} (hfresh : ∀ t ∈ queried, t ≠ QTag.wild n.pfx c) :
    ∀ t ∈ queried, QTag.target t ≠ n.pfx ++ "." ++ String.mk [c] := by
  intro t ht he
  cases t with
  | root => exact wild_ne_empty _ _ he.symm
  | child s =>
      obtain ⟨x, hx, ch, hch, hs⟩ := inv.childShape _ ht s rfl
      have hxs := inv.nodeShape x (List.mem_append_left _ hx)
      refine child_ne_wild fullcs hdot x.pfx hxs ch n.pfx c ?_
      rw [← hs]
      exact he
  | wild p c' =>
      obtain ⟨-, -, hp⟩ := inv.wildShape _ ht p c' rfl
      obtain ⟨h1, h2⟩ := wild_target_inj p n.pfx c' c hp hnp he
      exact hfresh _ ht (by rw [h1, h2])

lemma wildStepA_inv {fullcs : List Char} (hdot : '.' ∉ fullcs)
    {popped pending : List PNode} {seen : List String} {queried : List QTag}
    {n : PNode} (hn : n ∈ popped) (hnp : '.' ∉ n.pfx.data)
    {c : Char} (hc : c ∈ fullcs)
    (inv : ScanInv fullcs popped seen pending queried)
    (hfresh : ∀ t ∈ queried, t ≠ QTag.wild n.pfx c) :
    ScanInv fullcs popped seen pending (queried ++ [QTag.wild n.pfx c]) := by
  refine ⟨?_, inv.rootSeen, ?_, ?_, ?_, inv.pfxNodup, inv.seenShape, inv.nodeShape,
    inv.nodesSeen⟩
  · rw [List.map_append]
    refine List.Nodup.append inv.nodupT (List.nodup_singleton _) ?_
    intro a ha hb
    obtain ⟨t, ht, hta⟩ := List.mem_map.mp ha
    rw [List.map_singleton, List.mem_singleton] at hb
    exact wild_target_fresh hdot hn hnp inv hfresh t ht (by rw [hta, hb]; rfl)
  · intro t ht s hs
    rcases List.mem_append.mp ht with h | h
    · exact inv.childSeen t h s hs
    · rw [List.mem_singleton] at h
      rw [h] at hs
      exact QTag.noConfusion hs
  · intro t ht s hs
    rcases List.mem_append.mp ht with h | h
    · exact inv.childShape t h s hs
    · rw [List.mem_singleton] at h
      rw [h] at hs
      exact QTag.noConfusion hs
  · intro t ht p c' hw
    rcases List.mem_append.mp ht with h | h
    · exact inv.wildShape t h p c' hw
    · rw [List.mem_singleton] at h
      rw [h] at hw
      injection hw with hw1 hw2
      rw [← hw1, ← hw2]
      exact ⟨⟨n, hn, rfl⟩, hc, hnp⟩

lemma wildStepB_inv {fullcs : List Char} (hdot : '.' ∉ fullcs)
    {popped pending : List PNode} {seen : List String} {queried : List QTag}
    {n : PNode} (hn : n ∈ popped) (hnp : '.' ∉ n.pfx.data)
    {c : Char} (hc : c ∈ fullcs)
    (inv : ScanInv fullcs popped seen pending queried)
    (hfresh : ∀ t ∈ queried, t ≠ QTag.wild n.pfx c)
    (hm : n.pfx ++ "." ++ String.mk [c] ∉ seen) (tval : Nat) :
    ScanInv fullcs popped ((n.pfx ++ "." ++ String.mk [c]) :: seen)
      (pending ++ [⟨n.pfx ++ "." ++ String.mk [c], tval, n.depth + 1⟩])
      (queried ++ [QTag.wild n.pfx c]) := by
  have base := wildStepA_inv hdot hn hnp hc inv hfresh
  refine ⟨base.nodupT, List.mem_cons_of_mem _ inv.rootSeen, ?_, ?_, base.wildShape,
    ?_, ?_, ?_, ?_⟩
  · intro t ht s hs
    exact List.mem_cons_of_mem _ (base.childSeen t ht s hs)
  · intro t ht s hs
    exact base.childShape t ht s hs
  · rw [← List.append_assoc, List.map_append]
    refine List.Nodup.append inv.pfxNodup (List.nodup_singleton _) ?_
    intro a ha hb
    obtain ⟨x, hx, hxa⟩ := List.mem_map.mp ha
    rw [List.map_singleton, List.mem_singleton] at hb
    apply hm
    have haseen : a ∈ seen := by
      rw [← hxa]
      exact inv.nodesSeen x hx
    have hb2 : a = n.pfx ++ "." ++ String.mk [c] := hb
    rw [← hb2]
    exact haseen
  · intro s hs
    rcases List.mem_cons.mp hs with h | h
    · exact Or.inr (Or.inr ⟨n, hn, c, hc, hnp, h⟩)
    · exact (inv.seenShape s h).imp id id
  · intro x hx
    rw [← List.append_assoc] at hx
    rcases List.mem_append.mp hx with h | h
    · exact inv.nodeShape x h
    · rw [List.mem_singleton] at h
      refine Or.inr ⟨n.pfx.data ++ ['.'], c, hc, ?_⟩
      rw [h]
      rw [wild_data, List.append_assoc]
      rfl
  · intro x hx
    rw [← List.append_assoc] at hx
    rcases List.mem_append.mp hx with h | h
    · exact List.mem_cons_of_mem _ (inv.nodesSeen x h)
    · rw [List.mem_singleton] at h
      rw [h]
      exact List.mem_cons_self _ _

lemma wildScan_pres (countQ : CountFn) (field : String) {fullcs : List Char}
    (hdot : '.' ∉ fullcs) {popped : List PNode} {n : PNode} (hn : n ∈ popped)
    (hnp : '.' ∉ n.pfx.data) :
    ∀ (cs : List Char) (st : ScanSt), (∀ c ∈ cs, c ∈ fullcs) → cs.Nodup →
      (∀ t ∈ st.queried, ∀ c ∈ cs, t ≠ QTag.wild n.pfx c) →
      ScanInv fullcs popped st.seen st.pending st.queried →
      ScanInv fullcs popped (wildScan countQ field n cs st).seen
        (wildScan countQ field n cs st).pending
        (wildScan countQ field n cs st).queried := by
  intro cs
  induction cs with
  | nil => intro st _ _ _ inv; exact inv
  | cons c cs ih =>
      intro st hsub hnd hfr inv
      have hc : c ∈ fullcs := hsub c (List.mem_cons_self _ _)
      have hsub' : ∀ a ∈ cs, a ∈ fullcs := fun a ha => hsub a (List.mem_cons_of_mem _ ha)
      have hfr1 : ∀ t ∈ st.queried, t ≠ QTag.wild n.pfx c :=
        fun t ht => hfr t ht c (List.mem_cons_self _ _)
      have hfr' : ∀ t ∈ st.queried ++ [QTag.wild n.pfx c], ∀ a ∈ cs,
          t ≠ QTag.wild n.pfx a := by
        intro t ht a ha he
        rcases List.mem_append.mp ht with h | h
        · exact hfr t h a (List.mem_cons_of_mem _ ha) he
        · rw [List.mem_singleton] at h
          rw [h] at he
          injection he with _ he2
          rw [he2] at hnd
          exact (List.nodup_cons.mp hnd).1 ha
      simp only [wildScan]
      cases hq : countQ (field ++ ":*" ++ pyLower n.pfx ++ "." ++ String.mk [c] ++ "*") with
      | error e =>
          exact ih _ hsub' (List.nodup_cons.mp hnd).2 hfr'
            (wildStepA_inv hdot hn hnp hc inv hfr1)
      | ok t =>
          dsimp only
          by_cases ht : t ≠ 0
          · rw [if_pos ht]
            by_cases hm : n.pfx ++ "." ++ String.mk [c] ∈ st.seen
            · rw [if_pos hm]
              exact ih _ hsub' (List.nodup_cons.mp hnd).2 hfr'
                (wildStepA_inv hdot hn hnp hc inv hfr1)
            · rw [if_neg hm]
              exact ih _ hsub' (List.nodup_cons.mp hnd).2 hfr'
                (wildStepB_inv hdot hn hnp hc inv hfr1 hm t)
          · rw [if_neg ht]
            exact ih _ hsub' (List.nodup_cons.mp hnd).2 hfr'
              (wildStepA_inv hdot hn hnp hc inv hfr1)

/-- Extract the state carried by a node-processing outcome. -/
def stOfPN : LoopSt ⊕ (List Segment × String × LoopSt) → LoopSt
  | .inl st => st
  | .inr r => r.2.2

lemma childScan_tags (countQ : CountFn) (field : String) (n : PNode) :
    ∀ (cs : List Char) (st : ScanSt), ∀ t ∈ (childScan countQ field n cs st).queried,
      t ∈ st.queried ∨ ∃ s, t = QTag.child s := by
  intro cs
  induction cs with
  | nil => intro st t ht; exact Or.inl ht
  | cons c cs ih =>
      intro st t ht
      simp only [childScan] at ht
      by_cases hm : n.pfx.push c ∈ st.seen
      · rw [if_pos hm] at ht
        exact ih st t ht
      · rw [if_neg hm] at ht
        cases hq : countQ (buildQuery (n.pfx.push c) field none) with
        | error e =>
            rw [hq] at ht
            rcases ih _ t ht with h | h
            · rcases List.mem_append.mp h with h1 | h1
              · exact Or.inl h1
              · rw [List.mem_singleton] at h1
                exact Or.inr ⟨_, h1⟩
            · exact Or.inr h
        | ok tv =>
            rw [hq] at ht
            dsimp only at ht
            by_cases htv : tv ≠ 0
            · rw [if_pos htv] at ht
              rcases ih _ t ht with h | h
              · rcases List.mem_append.mp h with h1 | h1
                · exact Or.inl h1
                · rw [List.mem_singleton] at h1
                  exact Or.inr ⟨_, h1⟩
              · exact Or.inr h
            · rw [if_neg htv] at ht
              rcases ih _ t ht with h | h
              · rcases List.mem_append.mp h with h1 | h1
                · exact Or.inl h1
                · rw [List.mem_singleton] at h1
                  exact Or.inr ⟨_, h1⟩
              · exact Or.inr h

lemma dateNamePart_inr_spec (countQ : CountFn) (charset : String) (safeLimit : Nat)
    (st : LoopSt) (r : List Segment × String × LoopSt)
    (h : dateNamePart countQ charset safeLimit st = Sum.inr r) :
    ∃ fb1, r.2.2 = { st with fb := fb1 } := by
  simp only [dateNamePart] at h
  repeat' split at h
  all_goals first
    | exact Sum.noConfusion h
    | (cases h; exact ⟨_, rfl⟩)

lemma wildcardOrCap_pres (countQ : CountFn) (field charset : String) (maxW maxLen : Nat)
    {fullcs : List Char} (hchar : charset.data = fullcs) (hdot : '.' ∉ fullcs)
    (hnd : fullcs.Nodup)
    {n : PNode} {st : LoopSt} (hn : n ∈ st.popped)
    (inv : ScanInv fullcs st.popped st.seen st.pending st.queried)
    (hfr : ∀ t ∈ st.queried, ∀ c, t ≠ QTag.wild n.pfx c) :
    ScanInv fullcs (wildcardOrCap countQ field charset maxW maxLen n st).popped
      (wildcardOrCap countQ field charset maxW maxLen n st).seen
      (wildcardOrCap countQ field charset maxW maxLen n st).pending
      (wildcardOrCap countQ field charset maxW maxLen n st).queried := by
  simp only [wildcardOrCap]
  split
  next hguard =>
    have hnp : '.' ∉ n.pfx.data := no_dot_of_upper n.pfx hguard.1
    have hws := wildScan_pres countQ field hdot hn hnp charset.data
      ⟨st.pending, st.seen, st.queried, false⟩
      (by rw [hchar]; exact fun c hc0 => hc0) (by rw [hchar]; exact hnd)
      (fun t ht c hc => hfr t ht c) inv
    split
    · exact hws
    · exact hws
  next hguard => exact inv

lemma processNode_pres (countQ : CountFn) (field charset : String) (maxW maxLen : Nat)
    {fullcs : List Char} (hchar : charset.data = fullcs) (hdot : '.' ∉ fullcs)
    (hnd : fullcs.Nodup) (n : PNode) (rest : List PNode) (st : LoopSt)
    (hpend : st.pending = n :: rest)
    (inv0 : ScanInv fullcs st.popped st.seen st.pending st.queried) :
    ScanInv fullcs
      (stOfPN (processNode countQ field charset maxW maxLen n
        { st with pending := rest, popped := st.popped ++ [n] })).popped
      (stOfPN (processNode countQ field charset maxW maxLen n
        { st with pending := rest, popped := st.popped ++ [n] })).seen
      (stOfPN (processNode countQ field charset maxW maxLen n
        { st with pending := rest, popped := st.popped ++ [n] })).pending
      (stOfPN (processNode countQ field charset maxW maxLen n
        { st with pending := rest, popped := st.popped ++ [n] })).queried := by
  rw [hpend] at inv0
  have inv' := ScanInv_shift inv0
  have hfr := no_prior_wild inv0
  have hn' : n ∈ st.popped ++ [n] :=
    List.mem_append_right _ (List.mem_singleton.mpr rfl)
  have hsc := childScan_pres countQ field hdot hn' charset.data
    ⟨rest, st.seen, st.queried, false⟩ (by rw [hchar]; exact fun c h => h) inv'
  have htags := childScan_tags countQ field n charset.data ⟨rest, st.seen, st.queried, false⟩
  simp only [processNode]
  split
  · exact inv'
  · split
    · exact inv'
    · split
      · exact inv'
      · split
        next r heq =>
          split at heq
          · obtain ⟨fb1, hr⟩ := dateNamePart_inr_spec _ _ _ _ _ heq
            have hgoal : ScanInv fullcs r.2.2.popped r.2.2.seen r.2.2.pending
                r.2.2.queried := by
              rw [hr]
              exact hsc
            exact hgoal
          · exact Sum.noConfusion heq
        next st2 heq =>
          have hst2 : ScanInv fullcs st2.popped st2.seen st2.pending st2.queried ∧
              st2.popped = st.popped ++ [n] ∧
              st2.queried = (childScan countQ field n charset.data
                ⟨rest, st.seen, st.queried, false⟩).queried := by
            split at heq
            · obtain ⟨fb1, hr⟩ := dateNamePart_inl_spec _ _ _ _ _ heq
              rw [hr]
              exact ⟨hsc, rfl, rfl⟩
            · cases heq
              exact ⟨hsc, rfl, rfl⟩
          have hfr2 : ∀ t ∈ st2.queried, ∀ c, t ≠ QTag.wild n.pfx c := by
            rw [hst2.2.2]
            intro t ht c he
            rcases htags t ht with h1 | ⟨s, hs⟩
            · exact hfr t h1 c he
            · rw [hs] at he
              exact QTag.noConfusion he
          have hn2 : n ∈ st2.popped := by
            rw [hst2.2.1]
            exact hn'
          split
          · exact wildcardOrCap_pres countQ field charset maxW maxLen hchar hdot hnd
              hn2 hst2.1 hfr2
          · exact hst2.1

lemma plannerLoop_inv (countQ : CountFn) (field charset : String) (maxW maxLen : Nat)
    {fullcs : List Char} (hchar : charset.data = fullcs) (hdot : '.' ∉ fullcs)
    (hnd : fullcs.Nodup) :
    ∀ (fuel : Nat) (st : LoopSt),
      ScanInv fullcs st.popped st.seen st.pending st.queried →
      ScanInv fullcs
        (loopStOf (plannerLoop countQ field charset maxW maxLen fuel st)).popped
        (loopStOf (plannerLoop countQ field charset maxW maxLen fuel st)).seen
        (loopStOf (plannerLoop countQ field charset maxW maxLen fuel st)).pending
        (loopStOf (plannerLoop countQ field charset maxW maxLen fuel st)).queried := by
  intro fuel
  induction fuel with
  | zero => intro st inv; exact inv
  | succ fuel ih =>
      intro st inv
      simp only [plannerLoop]
      cases hp : st.pending with
      | nil =>
          simp only [hp]
          exact inv
      | cons n rest =>
          simp only [hp]
          have hpres := processNode_pres countQ field charset maxW maxLen hchar hdot hnd
            n rest st hp inv
          cases hpn : processNode countQ field charset maxW maxLen n
              { st with pending := rest, popped := st.popped ++ [n] } with
          | inl sA =>
              simp only [hpn]
              rw [hpn] at hpres
              exact ih sA hpres
          | inr r =>
              simp only [hpn]
              rw [hpn] at hpres
              exact hpres

lemma computeSegments_queried_nodup (countQ : CountFn) (field charset : String)
    {fullcs : List Char} (hchar : charset.data = fullcs) (hdot : '.' ∉ fullcs)
    (hnd : fullcs.Nodup) (maxW maxLen fuel : Nat) (res : PlanRes)
    (h : computeSegments countQ field charset maxW maxLen fuel = some res) :
    (res.queried.map QTag.target).Nodup := by
  simp only [computeSegments] at h
  cases hroot : countQ (buildQuery "" field none) with
  | error e =>
      rw [hroot] at h
      exact Option.noConfusion h
  | ok total =>
      rw [hroot] at h
      dsimp only at h
      by_cases hle : total ≤ maxW
      · rw [if_pos hle] at h
        cases h
        show (List.map QTag.target [QTag.root]).Nodup
        decide
      · rw [if_neg hle] at h
        have inv0 : ScanInv fullcs [] [""] [⟨"", total, 0⟩] [QTag.root] := by
          refine ⟨by decide, List.mem_singleton.mpr rfl, ?_, ?_, ?_, ?_, ?_, ?_, ?_⟩
          · intro t ht s hs
            rw [List.mem_singleton] at ht
            rw [ht] at hs
            exact QTag.noConfusion hs
          · intro t ht s hs
            rw [List.mem_singleton] at ht
            rw [ht] at hs
            exact QTag.noConfusion hs
          · intro t ht p c hw
            rw [List.mem_singleton] at ht
            rw [ht] at hw
            exact QTag.noConfusion hw
          · simp
          · intro s hs
            rw [List.mem_singleton] at hs
            exact Or.inl hs
          · intro x hx
            simp only [List.nil_append, List.mem_singleton] at hx
            rw [hx]
            exact Or.inl rfl
          · intro x hx
            simp only [List.nil_append, List.mem_singleton] at hx
            rw [hx]
            exact List.mem_singleton.mpr rfl
        have hinv := plannerLoop_inv countQ field charset maxW maxLen hchar hdot hnd
          fuel ⟨[⟨"", total, 0⟩], [""], [], [], [QTag.root], [], []⟩ inv0
        cases hl : plannerLoop countQ field charset maxW maxLen fuel
            ⟨[⟨"", total, 0⟩], [""], [], [], [QTag.root], [], []⟩ with
        | normal stN fin =>
            rw [hl] at h hinv
            cases h
            exact hinv.nodupT
        | early segs fld stE =>
            rw [hl] at h hinv
            cases h
            exact hinv.nodupT

lemma processNode_zero (countQ : CountFn) (field charset : String) (maxW maxLen : Nat)
    (n : PNode) (st : LoopSt) (h0 : n.cnt = 0) :
    processNode countQ field charset maxW maxLen n st = Sum.inl st := by
  simp only [processNode]
  rw [if_pos h0]

lemma processNode_small (countQ : CountFn) (field charset : String) (maxW maxLen : Nat)
    (n : PNode) (st : LoopSt) (h0 : ¬n.cnt = 0) (hle : n.cnt ≤ maxW - 1) :
    processNode countQ field charset maxW maxLen n st =
      Sum.inl { st with segments := st.segments ++ [⟨n.pfx, n.cnt, none⟩] } := by
  simp only [processNode]
  rw [if_neg h0, if_pos hle]

lemma processNode_expand (countQ : CountFn) (field charset : String) (maxW maxLen : Nat)
    (n : PNode) (st : LoopSt) (hgt : maxW - 1 < n.cnt) (hd : ¬maxLen ≤ n.depth)
    (hfound : (childScan countQ field n charset.data
      ⟨st.pending, st.seen, st.queried, false⟩).found = true) :
    processNode countQ field charset maxW maxLen n st =
      Sum.inl { st with
        pending := (childScan countQ field n charset.data
          ⟨st.pending, st.seen, st.queried, false⟩).pending,
        seen := (childScan countQ field n charset.data
          ⟨st.pending, st.seen, st.queried, false⟩).seen,
        queried := (childScan countQ field n charset.data
          ⟨st.pending, st.seen, st.queried, false⟩).queried } := by
  have hg1 : ¬((childScan countQ field n charset.data
      ⟨st.pending, st.seen, st.queried, false⟩).found = false ∧ n.pfx = "" ∧
      maxW - 1 < n.cnt ∧ field = "identifier") := by
    intro hc
    rw [hfound] at hc
    exact Bool.noConfusion hc.1
  have hg2 : ¬((childScan countQ field n charset.data
      ⟨st.pending, st.seen, st.queried, false⟩).found = false ∧ maxW - 1 < n.cnt) := by
    intro hc
    rw [hfound] at hc
    exact Bool.noConfusion hc.1
  simp only [processNode]
  rw [if_neg (by omega : ¬n.cnt = 0), if_neg (by omega : ¬n.cnt ≤ maxW - 1), if_neg hd,
    if_neg hg1]
  dsimp only
  rw [if_neg hg2]

lemma filter_cons_pos {p : Char → Bool} {c : Char} (cs : List Char) (h : p c = true) :
    (c :: cs).filter p = c :: cs.filter p := by
  simp [List.filter_cons, h]

lemma filter_cons_neg {p : Char → Bool} {c : Char} (cs : List Char) (h : p c = false) :
    (c :: cs).filter p = cs.filter p := by
  simp [List.filter_cons, h]

lemma childScan_compute (countQ : CountFn) (field : String) (n : PNode)
    (cnt : String → Nat)
    (H : ∀ p, countQ (buildQuery p field none) = Except.ok (cnt p)) :
    ∀ (cs : List Char) (st : ScanSt), cs.Nodup →
      (∀ c ∈ cs, n.pfx.push c ∉ st.seen) →
      (childScan countQ field n cs st).pending =
        st.pending ++ (cs.filter fun c => decide (cnt (n.pfx.push c) ≠ 0)).map
          (fun c => ⟨n.pfx.push c, cnt (n.pfx.push c), n.depth + 1⟩) ∧
      (childScan countQ field n cs st).found =
        (st.found || cs.any fun c => decide (cnt (n.pfx.push c) ≠ 0)) := by
  intro cs
  induction cs with
  | nil =>
      intro st _ _
      constructor
      · rw [List.filter_nil, List.map_nil, List.append_nil]
        rfl
      · rw [List.any_nil, Bool.or_false]
        rfl
  | cons c cs ih =>
      intro st hnd hfr
      have hm : n.pfx.push c ∉ st.seen := hfr c (List.mem_cons_self _ _)
      have hnd' := (List.nodup_cons.mp hnd).2
      have hcn := (List.nodup_cons.mp hnd).1
      simp only [childScan]
      rw [if_neg hm, H (n.pfx.push c)]
      dsimp only
      have hfr' : ∀ a ∈ cs, n.pfx.push a ∉ n.pfx.push c :: st.seen := by
        intro a ha hmem
        rcases List.mem_cons.mp hmem with h1 | h1
        · obtain ⟨-, h2⟩ := push_inj h1
          exact hcn (h2 ▸ ha)
        · exact hfr a (List.mem_cons_of_mem _ ha) h1
      by_cases hz : cnt (n.pfx.push c) ≠ 0
      · rw [if_pos hz]
        obtain ⟨ih1, ih2⟩ := ih ⟨st.pending ++ [⟨n.pfx.push c, cnt (n.pfx.push c),
            n.depth + 1⟩], n.pfx.push c :: st.seen,
            st.queried ++ [QTag.child (n.pfx.push c)], true⟩ hnd' (fun a ha => hfr' a ha)
        constructor
        · rw [ih1, filter_cons_pos cs (decide_eq_true hz), List.map_cons]
          show (st.pending ++ [_]) ++ _ = _
          rw [List.append_assoc]
          rfl
        · rw [ih2, List.any_cons, decide_eq_true hz]
          show (true || _) = (st.found || (true || _))
          rw [Bool.true_or, Bool.or_true]
      · rw [if_neg hz]
        obtain ⟨ih1, ih2⟩ := ih ⟨st.pending, n.pfx.push c :: st.seen,
            st.queried ++ [QTag.child (n.pfx.push c)], st.found⟩ hnd'
          (fun a ha => hfr' a ha)
        have hzf : (decide (cnt (n.pfx.push c) ≠ 0)) = false := by simpa using hz
        constructor
        · rw [ih1, filter_cons_neg cs hzf]
        · rw [ih2, List.any_cons, hzf, Bool.false_or]

lemma filter_map_sum (f : Char → Nat) : ∀ cs : List Char,
    (((cs.filter fun c => decide (f c ≠ 0)).map f).sum = (cs.map f).sum) := by
  intro cs
  induction cs with
  | nil => rfl
  | cons c cs ih =>
      by_cases hz : f c ≠ 0
      · rw [filter_cons_pos cs (decide_eq_true hz), List.map_cons, List.sum_cons,
          List.map_cons, List.sum_cons, ih]
      · rw [filter_cons_neg cs (by simpa using hz), List.map_cons, List.sum_cons, ih]
        have h0 : f c = 0 := by omega
        rw [h0, Nat.zero_add]

lemma plannerLoop_conserve (countQ : CountFn) (field charset : String)
    (maxW maxLen : Nat) {fullcs : List Char} (hchar : charset.data = fullcs)
    (hdot : '.' ∉ fullcs) (hnd : fullcs.Nodup) (cnt : String → Nat)
    (H : ∀ p, countQ (buildQuery p field none) = Except.ok (cnt p))
    (Hadd : ∀ p, maxW - 1 < cnt p →
      cnt p = (fullcs.map fun c => cnt (p.push c)).sum) :
    ∀ (fuel : Nat) (st : LoopSt),
      ScanInv fullcs st.popped st.seen st.pending st.queried →
      (∀ x ∈ st.pending, x.cnt = cnt x.pfx) →
      match plannerLoop countQ field charset maxW maxLen fuel st with
      | .early _ _ _ => False
      | .normal st1 fin => fin = true → st1.warns = [] →
          ((st1.segments.map Segment.total).sum =
            (st.segments.map Segment.total).sum + (st.pending.map PNode.cnt).sum ∧
          (∀ s ∈ st1.segments, s ∈ st.segments ∨ s.total ≤ maxW - 1) ∧
          st1.pending = []) := by
  intro fuel
  induction fuel with
  | zero =>
      intro st inv hacc
      simp only [plannerLoop]
      intro hfin _
      exact Bool.noConfusion hfin
  | succ fuel ih =>
      intro st inv hacc
      simp only [plannerLoop]
      cases hp : st.pending with
      | nil =>
          simp only [hp]
          intro _ _
          refine ⟨?_, fun s hs => Or.inl hs, ?_⟩
          · simp
          · trivial
      | cons n rest =>
          simp only [hp]
          have invh := inv
          rw [hp] at invh
          have haccn : n.cnt = cnt n.pfx :=
            hacc n (by rw [hp]; exact List.mem_cons_self _ _)
          have haccr : ∀ x ∈ rest, x.cnt = cnt x.pfx :=
            fun x hx => hacc x (by rw [hp]; exact List.mem_cons_of_mem _ hx)
          have hpres := processNode_pres countQ field charset maxW maxLen hchar hdot hnd
            n rest st hp inv
          by_cases h0 : n.cnt = 0
          · have hstep := processNode_zero countQ field charset maxW maxLen n
              { st with pending := rest, popped := st.popped ++ [n] } h0
            rw [hstep]
            rw [hstep] at hpres
            dsimp only
            have ihx := ih
              { st with pending := rest, popped := st.popped ++ [n] } hpres haccr
            cases hres : plannerLoop countQ field charset maxW maxLen fuel
                { st with pending := rest, popped := st.popped ++ [n] } with
            | early a b c =>
                rw [hres] at ihx
                exact ihx
            | normal st1 fin =>
                rw [hres] at ihx
                intro hfin hwe
                obtain ⟨hsum, hbd, hpe⟩ := ihx hfin hwe
                dsimp only at hsum hbd
                refine ⟨?_, fun s hs => hbd s hs, hpe⟩
                rw [hsum, List.map_cons, List.sum_cons, h0]
                omega
          · by_cases hle : n.cnt ≤ maxW - 1
            · have hstep := processNode_small countQ field charset maxW maxLen n
                { st with pending := rest, popped := st.popped ++ [n] } h0 hle
              rw [hstep]
              rw [hstep] at hpres
              dsimp only
              have ihx := ih
                { st with
                  pending := rest, popped := st.popped ++ [n],
                  segments := st.segments ++ [⟨n.pfx, n.cnt, none⟩] } hpres haccr
              cases hres : plannerLoop countQ field charset maxW maxLen fuel
                  { st with
                    pending := rest, popped := st.popped ++ [n],
                    segments := st.segments ++ [⟨n.pfx, n.cnt, none⟩] } with
              | early a b c =>
                  rw [hres] at ihx
                  exact ihx
              | normal st1 fin =>
                  rw [hres] at ihx
                  intro hfin hwe
                  obtain ⟨hsum, hbd, hpe⟩ := ihx hfin hwe
                  dsimp only at hsum hbd
                  rw [List.map_append, List.sum_append, List.map_cons, List.map_nil,
                    List.sum_cons, List.sum_nil] at hsum
                  dsimp only at hsum
                  refine ⟨?_, ?_, hpe⟩
                  · rw [hsum, List.map_cons, List.sum_cons]
                    omega
                  · intro s hs
                    rcases hbd s hs with h1 | h1
                    · rcases List.mem_append.mp h1 with h2 | h2
                      · exact Or.inl h2
                      · rw [List.mem_singleton] at h2
                        rw [h2]
                        exact Or.inr hle
                    · exact Or.inr h1
            · by_cases hdep : maxLen ≤ n.depth
              · have hstep := processNode_depth_cap countQ field charset maxW maxLen n
                  { st with pending := rest, popped := st.popped ++ [n] }
                  (by omega) hdep
                rw [hstep]
                rw [hstep] at hpres
                dsimp only
                have ihx := ih
                  { st with
                    pending := rest, popped := st.popped ++ [n],
                    warns := st.warns ++
                      [PWarn.maxDepthExceeded n.pfx n.depth n.cnt (maxW - 1) maxLen],
                    segments := st.segments ++ [⟨n.pfx, maxW - 1, none⟩] } hpres haccr
                cases hres : plannerLoop countQ field charset maxW maxLen fuel
                    { st with
                      pending := rest, popped := st.popped ++ [n],
                      warns := st.warns ++
                        [PWarn.maxDepthExceeded n.pfx n.depth n.cnt (maxW - 1) maxLen],
                      segments := st.segments ++ [⟨n.pfx, maxW - 1, none⟩] } with
                | early a b c =>
                    rw [hres] at ihx
                    exact ihx
                | normal st1 fin =>
                    rw [hres] at ihx
                    intro hfin hwe
                    have hmono := (plannerLoop_normal_mono countQ field charset maxW
                      maxLen fuel _ st1 fin hres).2
                    have hw : PWarn.maxDepthExceeded n.pfx n.depth n.cnt (maxW - 1)
                        maxLen ∈ st1.warns := by
                      refine hmono _ ?_
                      dsimp only
                      exact List.mem_append_right _ (List.mem_singleton.mpr rfl)
                    rw [hwe] at hw
                    exact absurd hw (List.not_mem_nil _)
              · have hgt : maxW - 1 < n.cnt := by omega
                have hfr := fresh_children hdot invh
                have hcomp := childScan_compute countQ field n cnt H charset.data
                  ⟨rest, st.seen, st.queried, false⟩ (by rw [hchar]; exact hnd)
                  (fun c _ => hfr c)
                have hSum := Hadd n.pfx (by rw [← haccn]; exact hgt)
                have hex : ∃ c ∈ fullcs, cnt (n.pfx.push c) ≠ 0 := by
                  by_contra hno
                  push_neg at hno
                  have hz : (fullcs.map fun c => cnt (n.pfx.push c)).sum = 0 := by
                    refine List.sum_eq_zero ?_
                    intro x hx
                    obtain ⟨c, hc, hcx⟩ := List.mem_map.mp hx
                    rw [← hcx]
                    exact hno c hc
                  omega
                have hany : (charset.data.any fun c =>
                    decide (cnt (n.pfx.push c) ≠ 0)) = true := by
                  rw [hchar, List.any_eq_true]
                  obtain ⟨c, hc, hcz⟩ := hex
                  exact ⟨c, hc, decide_eq_true hcz⟩
                have hfound : (childScan countQ field n charset.data
                    ⟨rest, st.seen, st.queried, false⟩).found = true := by
                  rw [hcomp.2]
                  show (false || _) = true
                  rw [Bool.false_or]
                  exact hany
                have hstep := processNode_expand countQ field charset maxW maxLen n
                  { st with pending := rest, popped := st.popped ++ [n] } hgt hdep hfound
                rw [hstep]
                rw [hstep] at hpres
                dsimp only
                have haccA : ∀ x ∈ (childScan countQ field n charset.data
                    ⟨rest, st.seen, st.queried, false⟩).pending, x.cnt = cnt x.pfx := by
                  intro x hx
                  rw [hcomp.1] at hx
                  rcases List.mem_append.mp hx with h1 | h1
                  · exact haccr x h1
                  · obtain ⟨c, hc, hcx⟩ := List.mem_map.mp h1
                    rw [← hcx]
                have ihx := ih
                  { st with
                    pending := (childScan countQ field n charset.data
                      ⟨rest, st.seen, st.queried, false⟩).pending,
                    seen := (childScan countQ field n charset.data
                      ⟨rest, st.seen, st.queried, false⟩).seen,
                    queried := (childScan countQ field n charset.data
                      ⟨rest, st.seen, st.queried, false⟩).queried,
                    popped := st.popped ++ [n] } hpres haccA
                cases hres : plannerLoop countQ field charset maxW maxLen fuel
                    { st with
                      pending := (childScan countQ field n charset.data
                        ⟨rest, st.seen, st.queried, false⟩).pending,
                      seen := (childScan countQ field n charset.data
                        ⟨rest, st.seen, st.queried, false⟩).seen,
                      queried := (childScan countQ field n charset.data
                        ⟨rest, st.seen, st.queried, false⟩).queried,
                      popped := st.popped ++ [n] } with
                | early a b c =>
                    rw [hres] at ihx
                    exact ihx
                | normal st1 fin =>
                    rw [hres] at ihx
                    intro hfin hwe
                    obtain ⟨hsum, hbd, hpe⟩ := ihx hfin hwe
                    dsimp only at hsum hbd
                    rw [hcomp.1] at hsum
                    dsimp only at hsum
                    rw [List.map_append, List.sum_append, List.map_map] at hsum
                    have hfun : (PNode.cnt ∘ fun c => (⟨n.pfx.push c,
                        cnt (n.pfx.push c), n.depth + 1⟩ : PNode)) =
                        (fun c => cnt (n.pfx.push c)) := rfl
                    rw [hfun, filter_map_sum (fun c => cnt (n.pfx.push c)) charset.data,
                      hchar] at hsum
                    refine ⟨?_, fun s hs => hbd s hs, hpe⟩
                    rw [hsum, List.map_cons, List.sum_cons]
                    omega

lemma sum_le_len_mul (m : Nat) : ∀ l : List Nat, (∀ x ∈ l, x ≤ m) →
    l.sum ≤ l.length * m := by
  intro l
  induction l with
  | nil => intro _; simp
  | cons a t ih =>
      intro hb
      rw [List.sum_cons, List.length_cons]
      have h1 := hb a (List.mem_cons_self _ _)
      have h2 := ih (fun x hx => hb x (List.mem_cons_of_mem _ hx))
      rw [Nat.succ_mul]
      omega

lemma init_scanInv (fullcs : List Char) (total : Nat) :
    ScanInv fullcs [] [""] [⟨"", total, 0⟩] [QTag.root] := by
  refine ⟨by decide, List.mem_singleton.mpr rfl, ?_, ?_, ?_, ?_, ?_, ?_, ?_⟩
  · intro t ht s hs
    rw [List.mem_singleton] at ht
    rw [ht] at hs
    exact QTag.noConfusion hs
  · intro t ht s hs
    rw [List.mem_singleton] at ht
    rw [ht] at hs
    exact QTag.noConfusion hs
  · intro t ht p c hw
    rw [List.mem_singleton] at ht
    rw [ht] at hw
    exact QTag.noConfusion hw
  · simp
  · intro s hs
    rw [List.mem_singleton] at hs
    exact Or.inl hs
  · intro x hx
    simp only [List.nil_append, List.mem_singleton] at hx
    rw [hx]
    exact Or.inl rfl
  · intro x hx
    simp only [List.nil_append, List.mem_singleton] at hx
    rw [hx]
    exact List.mem_singleton.mpr rfl

lemma computeSegments_scenario (countQ : CountFn) (field charset : String)
    {fullcs : List Char} (hchar : charset.data = fullcs) (hdot : '.' ∉ fullcs)
    (hnd : fullcs.Nodup) (cnt : String → Nat)
    (H : ∀ p, countQ (buildQuery p field none) = Except.ok (cnt p))
    (Hadd : ∀ p, 9999 < cnt p → cnt p = (fullcs.map fun c => cnt (p.push c)).sum)
    (Hroot : cnt "" = 25000) (maxLen fuel : Nat) (res : PlanRes)
    (h : computeSegments countQ field charset 10000 maxLen fuel = some res)
    (hfin : res.finished = true) (hwe : res.warns = []) :
    3 ≤ res.segments.length ∧ ∀ s ∈ res.segments, s.total ≤ 9999 := by
  simp only [computeSegments] at h
  rw [H ""] at h
  dsimp only at h
  rw [if_neg (show ¬cnt "" ≤ 10000 from by rw [Hroot]; omega)] at h
  have hcons := plannerLoop_conserve countQ field charset 10000 maxLen hchar hdot hnd
    cnt H Hadd fuel ⟨[⟨"", cnt "", 0⟩], [""], [], [], [QTag.root], [], []⟩
    (init_scanInv fullcs (cnt ""))
    (by intro x hx; rw [List.mem_singleton] at hx; rw [hx])
  cases hl : plannerLoop countQ field charset 10000 maxLen fuel
      ⟨[⟨"", cnt "", 0⟩], [""], [], [], [QTag.root], [], []⟩ with
  | early a b c =>
      rw [hl] at hcons
      exact hcons.elim
  | normal stN fin =>
      rw [hl] at hcons h
      cases h
      obtain ⟨hsum, hbd, -⟩ := hcons hfin hwe
      have hsum2 : (stN.segments.map Segment.total).sum = 25000 := by
        rw [hsum]
        simp [Hroot]
      have hbd2 : ∀ s ∈ stN.segments, s.total ≤ 9999 := by
        intro s hs
        rcases hbd s hs with h1 | h1
        · exact absurd h1 (List.not_mem_nil s)
        · exact h1
      have hperm := List.perm_insertionSort (fun a b : Segment => a.pfx ≤ b.pfx)
        stN.segments
      cases hsort : stN.segments.insertionSort (fun a b : Segment => a.pfx ≤ b.pfx) with
      | nil =>
          rw [hsort] at hperm
          have hnil := hperm.symm.eq_nil
          rw [hnil] at hsum2
          simp at hsum2
      | cons a t =>
          rw [hsort] at hperm
          have hmem : ∀ s ∈ a :: t, s.total ≤ 9999 :=
            fun s hs => hbd2 s (hperm.mem_iff.mp hs)
          have hsum3 : ((a :: t).map Segment.total).sum = 25000 := by
            rw [(hperm.map Segment.total).sum_eq]
            exact hsum2
          have hlen := sum_le_len_mul 9999 ((a :: t).map Segment.total) (by
            intro x hx
            obtain ⟨s, hs, hsx⟩ := List.mem_map.mp hx
            rw [← hsx]
            exact hmem s hs)
          rw [hsum3, List.length_map] at hlen
          constructor
          · show 3 ≤ (a :: t).length
            rw [List.length_cons] at hlen ⊢
            omega
          · intro s hs
            exact hmem s hs

lemma ne_star_of_len (s : String) (h : 1 < s.data.length) : s ≠ "*" := by
  intro he
  rw [he] at h
  exact absurd h (by decide)

lemma len_append (s t : String) : (s ++ t).data.length = s.data.length + t.data.length := by
  rw [String.data_append, List.length_append]

lemma buildQuery_identifier_ne_star (p : String) (hp : p ≠ "") :
    buildQuery p "identifier" none ≠ "*" := by
  simp only [buildQuery]
  rw [if_neg (show ¬(Option.getD (none : Option String) "" ≠ "") from by simp)]
  rw [if_neg hp]
  rw [show (decide (("identifier" : String) = "_id") && containsSub p ".") = false from by
    rw [show decide (("identifier" : String) = "_id") = false from by decide]
    exact Bool.false_and _]
  simp only [Bool.false_eq_true, if_false]
  rw [show (decide (("identifier" : String) = "name") && strStarts p "NAME_") = false from by
    rw [show decide (("identifier" : String) = "name") = false from by decide]
    exact Bool.false_and _]
  simp only [Bool.false_eq_true, if_false]
  rw [show (decide (("identifier" : String) = "date") && strStarts p "DATE_") = false from by
    rw [show decide (("identifier" : String) = "date") = false from by decide]
    exact Bool.false_and _]
  simp only [Bool.false_eq_true, if_false]
  split
  next base suf heq =>
    apply ne_star_of_len
    simp only [len_append]
    simp only [List.length_cons, List.length_nil]
    omega
  next heq =>
    apply ne_star_of_len
    simp only [len_append]
    simp only [List.length_cons, List.length_nil]
    omega

def c8QCount (q : String) : Nat :=
  if q = "*" then 25000
  else if q = "identifier:0*" then 9000
  else if q = "identifier:1*" then 9000
  else if q = "identifier:2*" then 7000
  else 0

def c8CountQ : CountFn := fun q => Except.ok (c8QCount q)

def c8Cnt (p : String) : Nat := c8QCount (buildQuery p "identifier" none)

def c8Res : PlanRes :=
  (computeSegments c8CountQ "identifier" DEFAULT_SEGMENT_CHARSET 10000 8 5).getD
    ⟨[], "", [], [], [], [], false⟩

lemma c8Hadd : ∀ p, 9999 < c8Cnt p →
    c8Cnt p = (DEFAULT_SEGMENT_CHARSET.data.map fun c => c8Cnt (p.push c)).sum := by
  intro p hgt
  have hq : buildQuery p "identifier" none = "*" := by
    by_contra hq
    have hle : c8Cnt p ≤ 9000 := by
      simp only [c8Cnt, c8QCount]
      rw [if_neg hq]
      repeat' split
      all_goals omega
    omega
  have hp : p = "" := by
    by_contra hp
    exact buildQuery_identifier_ne_star p hp hq
  rw [hp]
  decide

/-- C8: (i) in any planning run of `compute_segments` over the default
charset, the prefix-count endpoint is never queried twice for the same
prefix — the recorded trace of prefix targets (root, child and wildcard
probes) is pairwise distinct, because the seen set marks each child
prefix after its first count query, including on query failure; (ii) for
a resource with a consistent count oracle totalling 25000 records at the
root (additively split over child prefixes wherever a count exceeds the
safe limit 9999), with window cap 10000, a completed, warning-free
planning run produces at least 3 leaf segments, each of total at most
9999. -/
theorem planner_scenario_and_no_requery :
    (∀ (countQ : CountFn) (field : String) (maxW maxLen fuel : Nat) (res : PlanRes),
      computeSegments countQ field DEFAULT_SEGMENT_CHARSET maxW maxLen fuel = some res →
      (res.queried.map QTag.target).Nodup) ∧
    (∀ (countQ : CountFn) (cnt : String → Nat) (maxLen fuel : Nat) (res : PlanRes),
      (∀ p, countQ (buildQuery p "identifier" none) = Except.ok (cnt p)) →
      (∀ p, 9999 < cnt p →
        cnt p = (DEFAULT_SEGMENT_CHARSET.data.map fun c => cnt (p.push c)).sum) →
      cnt "" = 25000 →
      computeSegments countQ "identifier" DEFAULT_SEGMENT_CHARSET 10000 maxLen fuel =
        some res →
      res.finished = true → res.warns = [] →
      3 ≤ res.segments.length ∧ ∀ s ∈ res.segments, s.total ≤ 9999) :=
  ⟨fun countQ field maxW maxLen fuel res h =>
    computeSegments_queried_nodup countQ field DEFAULT_SEGMENT_CHARSET rfl
      (by decide) (by decide) maxW maxLen fuel res h,
   fun countQ cnt maxLen fuel res H Hadd Hroot h hfin hwe =>
    computeSegments_scenario countQ "identifier" DEFAULT_SEGMENT_CHARSET rfl
      (by decide) (by decide) cnt H Hadd Hroot maxLen fuel res h hfin hwe⟩

/-- Witness: a concrete count oracle with root total 25000 splitting
into buckets 9000/9000/7000 under prefixes "0", "1", "2"; the planner
finishes with three segments within the safe limit and a duplicate-free
prefix-query trace. -/
theorem planner_scenario_and_no_requery_witness :
    (computeSegments c8CountQ "identifier" DEFAULT_SEGMENT_CHARSET 10000 8 5 =
        some c8Res ∧
      c8Res.finished = true ∧ c8Res.warns = [] ∧ c8Cnt "" = 25000) ∧
    (3 ≤ c8Res.segments.length ∧ ∀ s ∈ c8Res.segments, s.total ≤ 9999) ∧
    (c8Res.queried.map QTag.target).Nodup :=
  ⟨⟨by rfl, by rfl, by rfl, by rfl⟩,
   planner_scenario_and_no_requery.2 c8CountQ c8Cnt 8 5 c8Res (fun p => rfl)
     c8Hadd (by rfl) (by rfl) (by rfl) (by rfl),
   planner_scenario_and_no_requery.1 c8CountQ "identifier" 10000 8 5 c8Res (by rfl)⟩

/-! ## C4: request retry policy (`request_payload`, `configure_session`) -/

/-- Result of one raw HTTP exchange: a success body (possibly truncated
mid-transfer), a response with an HTTP status code, a connection
failure, or a timeout. -/
inductive Send where
  | ok (truncated : Bool)
  | status (code : Nat)
  | conn
  | timeout
deriving DecidableEq, Repr

/-- `configure_session` retry status list (`cli.py` 78). -/
def STATUS_FORCELIST : List Nat := [429, 500, 502, 503, 504]

/-- Outcome of one `session.get` through the mounted adapter. -/
inductive SessionOut where
  | payload (truncated : Bool)
  | httpStatus (code : Nat)
  | retryError
  | conn
  | timeout
deriving DecidableEq, Repr

/-- The urllib3 `Retry(total=5, status_forcelist=(429,500,502,503,504))`
layer mounted by `configure_session`: statuses in the forcelist are
retried until the budget is exhausted (then `RetryError`); anything else
is returned to `request_payload`.  Returns the next unconsumed raw-send
index together with the outcome. -/
def sessionGetF (raw : Nat → Send) : Nat → Nat → Nat × SessionOut
  | fuel, i =>
    match raw i with
    | .ok t => (i + 1, .payload t)
    | .conn => (i + 1, .conn)
    | .timeout => (i + 1, .timeout)
    | .status c =>
        if c ∈ STATUS_FORCELIST then
          match fuel with
          | 0 => (i + 1, .retryError)
          | fuel' + 1 => sessionGetF raw fuel' (i + 1)
        else (i + 1, .httpStatus c)

/-- How `request_payload` ends: parsed payload, an `HTTPError` raised
without retry, a network-class error raised after the attempt budget, or
a session-layer `RetryError` (not in the except tuple, so it propagates
out of the loop at once). -/
inductive PayloadOut where
  | ok
  | raisedHTTP (code : Nat)
  | raisedNet
  | raisedRetryError
deriving DecidableEq, Repr

/-- Ghost trace of one `request_payload` call: loop attempts used, raw
sends consumed, the sleeps performed (seconds), and the outcome. -/
structure ReqTrace where
  attempts : Nat
  rawCount : Nat
  waits : List Nat
  out : PayloadOut
deriving DecidableEq, Repr

/-- The retry loop of `request_payload` (`cli.py` 314-344): each
attempt issues one session `get`; `ChunkedEncodingError` (including a
truncated success body surfacing during `response.json()`),
`ConnectionError` and `Timeout` are retried after sleeping
`2 ** attempt` seconds, up to `max_retries` attempts, then re-raised;
`raise_for_status` errors (`HTTPError`) are re-raised immediately with
no retry. -/
def requestPayloadF (raw : Nat → Send) (maxRetries : Nat) :
    Nat → Nat → Nat → List Nat → ReqTrace
  | 0, attempt, i, ws => ⟨attempt, i, ws, .raisedNet⟩
  | fuel + 1, attempt, i, ws =>
      match sessionGetF raw 5 i with
      | (j, .payload false) => ⟨attempt + 1, j, ws, .ok⟩
      | (j, .payload true) =>
          if attempt < maxRetries - 1 then
            requestPayloadF raw maxRetries fuel (attempt + 1) j (ws ++ [2 ^ attempt])
          else ⟨attempt + 1, j, ws, .raisedNet⟩
      | (j, .conn) =>
          if attempt < maxRetries - 1 then
            requestPayloadF raw maxRetries fuel (attempt + 1) j (ws ++ [2 ^ attempt])
          else ⟨attempt + 1, j, ws, .raisedNet⟩
      | (j, .timeout) =>
          if attempt < maxRetries - 1 then
            requestPayloadF raw maxRetries fuel (attempt + 1) j (ws ++ [2 ^ attempt])
          else ⟨attempt + 1, j, ws, .raisedNet⟩
      | (j, .httpStatus c) =>
          if 400 ≤ c then ⟨attempt + 1, j, ws, .raisedHTTP c⟩
          else ⟨attempt + 1, j, ws, .ok⟩
      | (j, .retryError) => ⟨attempt + 1, j, ws, .raisedRetryError⟩

/-- `request_payload` with the default `max_retries = 5`. -/
def requestPayload (raw : Nat → Send) : ReqTrace :=
  requestPayloadF raw 5 5 0 0 []

lemma sessionGetF_force (raw : Nat → Send) (c : Nat) (hc : c ∈ STATUS_FORCELIST)
    (hraw : ∀ i, raw i = Send.status c) :
    ∀ fuel i, sessionGetF raw fuel i = (i + fuel + 1, SessionOut.retryError) := by
  intro fuel
  induction fuel with
  | zero =>
      intro i
      simp only [sessionGetF, hraw]
      rw [if_pos hc]
  | succ fuel ih =>
      intro i
      simp only [sessionGetF, hraw]
      rw [if_pos hc, ih (i + 1)]
      have harith : i + 1 + fuel + 1 = i + (fuel + 1) + 1 := by omega
      rw [harith]

lemma sessionGetF_net (raw : Nat → Send) (fuel i : Nat)
    (h : raw i = Send.conn ∨ raw i = Send.timeout ∨ raw i = Send.ok true) :
    sessionGetF raw fuel i = (i + 1, SessionOut.conn) ∨
    sessionGetF raw fuel i = (i + 1, SessionOut.timeout) ∨
    sessionGetF raw fuel i = (i + 1, SessionOut.payload true) := by
  rcases h with h | h | h
  · refine Or.inl ?_
    cases fuel <;> simp only [sessionGetF, h]
  · refine Or.inr (Or.inl ?_)
    cases fuel <;> simp only [sessionGetF, h]
  · refine Or.inr (Or.inr ?_)
    cases fuel <;> simp only [sessionGetF, h]

lemma requestPayloadF_netstep (raw : Nat → Send) (fuel attempt i : Nat) (ws : List Nat)
    (h : raw i = Send.conn ∨ raw i = Send.timeout ∨ raw i = Send.ok true) :
    requestPayloadF raw 5 (fuel + 1) attempt i ws =
      (if attempt < 4 then requestPayloadF raw 5 fuel (attempt + 1) (i + 1)
        (ws ++ [2 ^ attempt])
      else ⟨attempt + 1, i + 1, ws, .raisedNet⟩) := by
  rcases sessionGetF_net raw 5 i h with hs | hs | hs <;>
    simp only [requestPayloadF, hs]

lemma sessionGetF_status (raw : Nat → Send) (fuel i c : Nat)
    (hraw : raw i = Send.status c) (hc : c ∉ STATUS_FORCELIST) :
    sessionGetF raw fuel i = (i + 1, SessionOut.httpStatus c) := by
  cases fuel <;> simp only [sessionGetF, hraw] <;> rw [if_neg hc]

lemma sessionGetF_ok (raw : Nat → Send) (fuel i : Nat) (t : Bool)
    (hraw : raw i = Send.ok t) :
    sessionGetF raw fuel i = (i + 1, SessionOut.payload t) := by
  cases fuel <;> simp only [sessionGetF, hraw]

lemma requestPayloadF_retryErr_step (raw : Nat → Send) (fuel attempt i j : Nat)
    (ws : List Nat) (hs : sessionGetF raw 5 i = (j, SessionOut.retryError)) :
    requestPayloadF raw 5 (fuel + 1) attempt i ws =
      ⟨attempt + 1, j, ws, .raisedRetryError⟩ := by
  simp only [requestPayloadF, hs]

lemma requestPayloadF_http_step (raw : Nat → Send) (fuel attempt i j c : Nat)
    (ws : List Nat) (hs : sessionGetF raw 5 i = (j, SessionOut.httpStatus c))
    (hc : 400 ≤ c) :
    requestPayloadF raw 5 (fuel + 1) attempt i ws =
      ⟨attempt + 1, j, ws, .raisedHTTP c⟩ := by
  simp only [requestPayloadF, hs]
  rw [if_pos hc]

lemma requestPayloadF_ok_step (raw : Nat → Send) (fuel attempt i j : Nat)
    (ws : List Nat) (hs : sessionGetF raw 5 i = (j, SessionOut.payload false)) :
    requestPayloadF raw 5 (fuel + 1) attempt i ws = ⟨attempt + 1, j, ws, .ok⟩ := by
  simp only [requestPayloadF, hs]

/-- C4 counterexample: HTTP 501 is a 5xx status, yet it is not in the
session's `status_forcelist`, so a request that always answers 501 is
never retried: one raw send, no sleeps, and an immediate fatal
`HTTPError` for that request. -/
theorem http_501_not_retried_counterexample :
    (500 ≤ 501 ∧ 501 < 600) ∧ 501 ∉ STATUS_FORCELIST ∧
    requestPayload (fun _ => Send.status 501) =
      ⟨1, 1, [], PayloadOut.raisedHTTP 501⟩ :=
  ⟨by decide, by decide, rfl⟩

/-- C4 (amended): the retry policy actually implemented.  Statuses in
the forcelist (429, 500, 502, 503, 504) are retried by the session
adapter with a bounded budget, after which a terminal `RetryError`
surfaces for that request only; connection failures, timeouts and
truncated success bodies are retried by `request_payload` with sleeps
1, 2, 4, 8 seconds (2^attempt) over at most 5 attempts, then the error
is re-raised; every other error status — all remaining 4xx but also the
5xx codes missing from the forcelist, such as 501 — is surfaced
immediately as a fatal `HTTPError` with no retry; a clean response
succeeds on the first attempt. -/
theorem request_retry_policy :
    (∀ (raw : Nat → Send) (c : Nat), c ∈ STATUS_FORCELIST →
      (∀ i, raw i = Send.status c) →
      requestPayload raw = ⟨1, 6, [], PayloadOut.raisedRetryError⟩) ∧
    (∀ raw : Nat → Send,
      (∀ i, raw i = Send.conn ∨ raw i = Send.timeout ∨ raw i = Send.ok true) →
      requestPayload raw = ⟨5, 5, [1, 2, 4, 8], PayloadOut.raisedNet⟩) ∧
    (∀ (raw : Nat → Send) (c : Nat), c ∉ STATUS_FORCELIST → 400 ≤ c →
      raw 0 = Send.status c →
      requestPayload raw = ⟨1, 1, [], PayloadOut.raisedHTTP c⟩) ∧
    (∀ raw : Nat → Send, raw 0 = Send.ok false →
      requestPayload raw = ⟨1, 1, [], PayloadOut.ok⟩) := by
  refine ⟨?_, ?_, ?_, ?_⟩
  · intro raw c hc hraw
    exact requestPayloadF_retryErr_step raw 4 0 0 (0 + 5 + 1) []
      (sessionGetF_force raw c hc hraw 5 0)
  · intro raw hnet
    show requestPayloadF raw 5 (4 + 1) 0 0 [] = _
    rw [requestPayloadF_netstep raw 4 0 0 [] (hnet 0),
      if_pos (by decide : (0 : Nat) < 4)]
    rw [requestPayloadF_netstep raw 3 (0 + 1) (0 + 1) ([] ++ [2 ^ 0]) (hnet (0 + 1)),
      if_pos (by decide : 0 + 1 < 4)]
    rw [requestPayloadF_netstep raw 2 (0 + 1 + 1) (0 + 1 + 1)
        ([] ++ [2 ^ 0] ++ [2 ^ (0 + 1)]) (hnet (0 + 1 + 1)),
      if_pos (by decide : 0 + 1 + 1 < 4)]
    rw [requestPayloadF_netstep raw 1 (0 + 1 + 1 + 1) (0 + 1 + 1 + 1)
        ([] ++ [2 ^ 0] ++ [2 ^ (0 + 1)] ++ [2 ^ (0 + 1 + 1)]) (hnet (0 + 1 + 1 + 1)),
      if_pos (by decide : 0 + 1 + 1 + 1 < 4)]
    rw [requestPayloadF_netstep raw 0 (0 + 1 + 1 + 1 + 1) (0 + 1 + 1 + 1 + 1)
        ([] ++ [2 ^ 0] ++ [2 ^ (0 + 1)] ++ [2 ^ (0 + 1 + 1)] ++ [2 ^ (0 + 1 + 1 + 1)])
        (hnet (0 + 1 + 1 + 1 + 1)),
      if_neg (by decide : ¬(0 + 1 + 1 + 1 + 1 < 4))]
    decide
  · intro raw c hc hge hraw0
    exact requestPayloadF_http_step raw 4 0 0 (0 + 1) c []
      (sessionGetF_status raw 5 0 c hraw0 hc) hge
  · intro raw hraw0
    exact requestPayloadF_ok_step raw 4 0 0 (0 + 1) []
      (sessionGetF_ok raw 5 0 false hraw0)

/-- Witness: the four retry behaviors at concrete request streams —
always-429, always-connection-failure, always-404, and clean success. -/
theorem request_retry_policy_witness :
    (429 ∈ STATUS_FORCELIST ∧
      requestPayload (fun _ => Send.status 429) =
        ⟨1, 6, [], PayloadOut.raisedRetryError⟩) ∧
    (requestPayload (fun _ => Send.conn) = ⟨5, 5, [1, 2, 4, 8], PayloadOut.raisedNet⟩) ∧
    (404 ∉ STATUS_FORCELIST ∧ 400 ≤ 404 ∧
      requestPayload (fun _ => Send.status 404) =
        ⟨1, 1, [], PayloadOut.raisedHTTP 404⟩) ∧
    (requestPayload (fun _ => Send.ok false) = ⟨1, 1, [], PayloadOut.ok⟩) :=
  ⟨⟨by decide, request_retry_policy.1 (fun _ => Send.status 429) 429 (by decide)
      (fun _ => rfl)⟩,
   request_retry_policy.2.1 (fun _ => Send.conn) (fun _ => Or.inl rfl),
   ⟨by decide, by decide, request_retry_policy.2.2.1 (fun _ => Send.status 404) 404
      (by decide) (by decide) rfl⟩,
   request_retry_policy.2.2.2 (fun _ => Send.ok false) rfl⟩

/-! ## C3: multi-resource run, error propagation and the summary report
(`fetch_command`, `cli.py` 1182-1256; `FetchState.load`, 42-54) -/

/-- The kind of exception a resource's fetch raises.  The first four
are the classes named in the `except` tuple at `cli.py` 1197; a
malformed checkpoint surfaces from `FetchState.load` inside
`fetch_resource` as `json.JSONDecodeError` (a `ValueError`) or
`KeyError`, neither of which is in the tuple. -/
inductive ExcKind where
  | httpError
  | chunked
  | connErr
  | timeoutErr
  | valueErr
  | keyErr
deriving DecidableEq, Repr

/-- Whether the exception class is caught by the `except` tuple at
`cli.py` 1197. -/
def inTuple : ExcKind → Bool
  | .httpError => true
  | .chunked => true
  | .connErr => true
  | .timeoutErr => true
  | .valueErr => false
  | .keyErr => false

/-- The checkpoint fields the summary pass reads. -/
structure StateData where
  mode : String
  next_offset : Nat
  total : Option Nat
  segments : List Segment
  segment_index : Nat
  segment_offset : Nat
deriving DecidableEq, Repr

/-- `fetched` as computed at `cli.py` 1215-1227: in segmented mode the
sum of the totals of the completed segments plus the current segment's
offset (only while a current segment exists); in linear mode
`next_offset`. -/
def fetchedOf (s : StateData) : Nat :=
  if s.mode = "segmented" then
    ((s.segments.take s.segment_index).map Segment.total).sum +
      (if s.segment_index < s.segments.length then s.segment_offset else 0)
  else s.next_offset

/-- What the summary-time checkpoint inspection finds: no state file,
a state file that fails to load, or loaded state. -/
inductive StateView where
  | absent
  | unreadable
  | readable (sd : StateData)
deriving DecidableEq, Repr

/-- One resource of a `fetch` run, as far as the command loop can
observe it: its name, the exception its fetch raises (if any), and the
checkpoint situation at summary time. -/
structure RSpec where
  name : String
  exc : Option ExcKind
  state : StateView
deriving DecidableEq, Repr

/-- The end-of-run tallies: completed names, incomplete entries
`(resource, fetched, total)`, failed entries `(resource, error_type)`. -/
structure FetchReport where
  completed : List String
  incomplete : List (String × Nat × Nat)
  failed : List (String × String)
deriving DecidableEq, Repr

/-- Classification of one resource (`cli.py` 1206-1256): readable state
with a known total and `fetched < total` is recorded incomplete,
otherwise completed; an unreadable state file records `StateReadError`
and a missing one `NoStateFile`, both guarded by the
not-already-incomplete check. -/
def classify (r : RSpec) (rep : FetchReport) : FetchReport :=
  match r.state with
  | .absent =>
      if r.name ∈ rep.incomplete.map (fun x => x.1) then rep
      else { rep with failed := rep.failed ++ [(r.name, "NoStateFile")] }
  | .unreadable =>
      if r.name ∈ rep.incomplete.map (fun x => x.1) then rep
      else { rep with failed := rep.failed ++ [(r.name, "StateReadError")] }
  | .readable sd =>
      match sd.total with
      | some t =>
          if fetchedOf sd < t then
            { rep with incomplete := rep.incomplete ++ [(r.name, fetchedOf sd, t)] }
          else { rep with completed := rep.completed ++ [r.name] }
      | none => { rep with completed := rep.completed ++ [r.name] }

/-- Result of the per-resource loop: either it reaches the end (and the
summary report is written), or an exception outside the `except` tuple
escapes, aborting the whole command with the remaining resources
unprocessed and no summary written. -/
inductive RunRes where
  | finished (rep : FetchReport)
  | aborted (rep : FetchReport) (pending : List String) (e : ExcKind)
deriving DecidableEq, Repr

/-- The `for resource in chosen_resources` loop of `fetch_command`:
a raised exception in the `except` tuple is caught and the resource
still goes through the state check; any other exception propagates. -/
def fetchLoop : List RSpec → FetchReport → RunRes
  | [], rep => .finished rep
  | r :: rest, rep =>
      match r.exc with
      | some e =>
          if inTuple e then fetchLoop rest (classify r rep)
          else .aborted rep (rest.map RSpec.name) e
      | none => fetchLoop rest (classify r rep)

/-- Where a resource ends up in the final report. -/
def classified (rep : FetchReport) (r : RSpec) : Prop :=
  match r.state with
  | .readable sd =>
      match sd.total with
      | some t =>
          if fetchedOf sd < t then (r.name, fetchedOf sd, t) ∈ rep.incomplete
          else r.name ∈ rep.completed
      | none => r.name ∈ rep.completed
  | _ => r.name ∈ rep.failed.map (fun x => x.1) ∨
      r.name ∈ rep.incomplete.map (fun x => x.1)

lemma classify_mono (r : RSpec) (rep : FetchReport) :
    (∀ x ∈ rep.completed, x ∈ (classify r rep).completed) ∧
    (∀ x ∈ rep.incomplete, x ∈ (classify r rep).incomplete) ∧
    (∀ x ∈ rep.failed, x ∈ (classify r rep).failed) := by
  simp only [classify]
  split
  · split
    · exact ⟨fun x hx => hx, fun x hx => hx, fun x hx => hx⟩
    · exact ⟨fun x hx => hx, fun x hx => hx, fun x hx => List.mem_append_left _ hx⟩
  · split
    · exact ⟨fun x hx => hx, fun x hx => hx, fun x hx => hx⟩
    · exact ⟨fun x hx => hx, fun x hx => hx, fun x hx => List.mem_append_left _ hx⟩
  · split
    · split
      · exact ⟨fun x hx => hx, fun x hx => List.mem_append_left _ hx, fun x hx => hx⟩
      · exact ⟨fun x hx => List.mem_append_left _ hx, fun x hx => hx, fun x hx => hx⟩
    · exact ⟨fun x hx => List.mem_append_left _ hx, fun x hx => hx, fun x hx => hx⟩

lemma classified_mono (r : RSpec) (rep1 rep2 : FetchReport)
    (hc : ∀ x ∈ rep1.completed, x ∈ rep2.completed)
    (hi : ∀ x ∈ rep1.incomplete, x ∈ rep2.incomplete)
    (hf : ∀ x ∈ rep1.failed, x ∈ rep2.failed)
    (h : classified rep1 r) : classified rep2 r := by
  simp only [classified] at h ⊢
  split at h
  · split at h
    · split at h
      · rw [if_pos (by assumption)]
        exact hi _ h
      · rw [if_neg (by assumption)]
        exact hc _ h
    · exact hc _ h
  · rcases h with h | h
    · obtain ⟨x, hx, hxe⟩ := List.mem_map.mp h
      exact Or.inl (List.mem_map.mpr ⟨x, hf x hx, hxe⟩)
    · obtain ⟨x, hx, hxe⟩ := List.mem_map.mp h
      exact Or.inr (List.mem_map.mpr ⟨x, hi x hx, hxe⟩)

lemma classify_self (r : RSpec) (rep : FetchReport) : classified (classify r rep) r := by
  rcases r with ⟨name, exc, state⟩
  cases state with
  | absent =>
      simp only [classified, classify]
      split
      next hmem => exact Or.inr hmem
      next hmem =>
        exact Or.inl (List.mem_map.mpr ⟨(name, "NoStateFile"),
          List.mem_append_right _ (List.mem_singleton.mpr rfl), rfl⟩)
  | unreadable =>
      simp only [classified, classify]
      split
      next hmem => exact Or.inr hmem
      next hmem =>
        exact Or.inl (List.mem_map.mpr ⟨(name, "StateReadError"),
          List.mem_append_right _ (List.mem_singleton.mpr rfl), rfl⟩)
  | readable sd =>
      cases htot : sd.total with
      | none =>
          simp only [classified, classify, htot]
          exact List.mem_append_right _ (List.mem_singleton.mpr rfl)
      | some t =>
          simp only [classified, classify, htot]
          by_cases hlt : fetchedOf sd < t
          · rw [if_pos hlt, if_pos hlt]
            exact List.mem_append_right _ (List.mem_singleton.mpr rfl)
          · rw [if_neg hlt, if_neg hlt]
            exact List.mem_append_right _ (List.mem_singleton.mpr rfl)

lemma fetchLoop_all_caught (rs : List RSpec) :
    ∀ rep0 : FetchReport, (∀ r ∈ rs, ∀ e, r.exc = some e → inTuple e = true) →
    ∃ rep, fetchLoop rs rep0 = .finished rep ∧
      (∀ x ∈ rep0.completed, x ∈ rep.completed) ∧
      (∀ x ∈ rep0.incomplete, x ∈ rep.incomplete) ∧
      (∀ x ∈ rep0.failed, x ∈ rep.failed) ∧
      (∀ r ∈ rs, classified rep r) := by
  induction rs with
  | nil =>
      intro rep0 _
      exact ⟨rep0, rfl, fun x hx => hx, fun x hx => hx, fun x hx => hx,
        fun r hr => absurd hr (List.not_mem_nil r)⟩
  | cons r rest ih =>
      intro rep0 hcaught
      have hrest : ∀ q ∈ rest, ∀ e, q.exc = some e → inTuple e = true :=
        fun q hq => hcaught q (List.mem_cons_of_mem _ hq)
      obtain ⟨rep, hrun, hc, hi, hf, hcl⟩ := ih (classify r rep0) hrest
      obtain ⟨mc, mi, mf⟩ := classify_mono r rep0
      have hstep : fetchLoop (r :: rest) rep0 = fetchLoop rest (classify r rep0) := by
        simp only [fetchLoop]
        cases hexc : r.exc with
        | none => rfl
        | some e =>
            dsimp only
            rw [if_pos (hcaught r (List.mem_cons_self _ _) e hexc)]
      refine ⟨rep, by rw [hstep]; exact hrun, fun x hx => hc x (mc x hx),
        fun x hx => hi x (mi x hx), fun x hx => hf x (mf x hx), ?_⟩
      intro q hq
      rcases List.mem_cons.mp hq with h1 | h1
      · rw [h1]
        exact classified_mono r (classify r rep0) rep hc hi hf (classify_self r rep0)
      · exact hcl q h1

def c3Bad : RSpec := ⟨"A", some ExcKind.valueErr, StateView.unreadable⟩

def c3Good : RSpec := ⟨"B", none, StateView.readable ⟨"linear", 10, some 10, [], 0, 0⟩⟩

/-- C3 counterexample: a checkpoint file that is present but malformed
raises `json.JSONDecodeError` (a `ValueError`) from `FetchState.load`
inside `fetch_resource`; that class is not in the `except` tuple at
`cli.py` 1197, so the exception escapes the per-resource loop: the
whole run aborts, the remaining resource is never fetched, and nothing
is recorded in any summary report — not even the failing resource. -/
theorem malformed_state_aborts_run_counterexample :
    inTuple ExcKind.valueErr = false ∧
    fetchLoop [c3Bad, c3Good] ⟨[], [], []⟩ =
      RunRes.aborted ⟨[], [], []⟩ ["B"] ExcKind.valueErr :=
  ⟨rfl, rfl⟩

/-- C3 (amended): when every per-resource failure is of one of the
classes named in the `except` tuple (`HTTPError`,
`ChunkedEncodingError`, `ConnectionError`, `Timeout`), the
multi-resource loop never aborts: it runs to the end and every resource
is recorded in the end-of-run report — readable checkpoints with
`fetched < total` as incomplete with their counts, other readable
checkpoints as completed, and resources with a missing or unreadable
checkpoint under `NoStateFile`/`StateReadError` in the failed list
(unless already recorded incomplete).  A failure outside that tuple —
in particular the `ValueError`/`KeyError` raised for a malformed
checkpoint during resume — aborts the whole run instead of stopping
only the affected resource. -/
theorem fetch_command_error_propagation :
    ∀ rs : List RSpec,
      (∀ r ∈ rs, ∀ e, r.exc = some e → inTuple e = true) →
      ∃ rep, fetchLoop rs ⟨[], [], []⟩ = RunRes.finished rep ∧
        ∀ r ∈ rs, classified rep r := by
  intro rs h
  obtain ⟨rep, hrun, -, -, -, hcl⟩ := fetchLoop_all_caught rs ⟨[], [], []⟩ h
  exact ⟨rep, hrun, hcl⟩

def c3r1 : RSpec := ⟨"A", some ExcKind.connErr, StateView.absent⟩

def c3r2 : RSpec := ⟨"B", some ExcKind.httpError,
  StateView.readable ⟨"linear", 5, some 10, [], 0, 0⟩⟩

def c3r3 : RSpec := ⟨"C", none, StateView.readable ⟨"linear", 10, some 10, [], 0, 0⟩⟩

lemma c3_all_caught : ∀ r ∈ [c3r1, c3r2, c3r3], ∀ e, r.exc = some e →
    inTuple e = true := by
  intro r hr e he
  rcases List.mem_cons.mp hr with h1 | hr2
  · rw [h1] at he
    injection he with he2
    rw [← he2]
    rfl
  rcases List.mem_cons.mp hr2 with h1 | hr3
  · rw [h1] at he
    injection he with he2
    rw [← he2]
    rfl
  rcases List.mem_cons.mp hr3 with h1 | hr4
  · rw [h1] at he
    exact Option.noConfusion he
  · exact absurd hr4 (List.not_mem_nil r)

/-- Witness: three resources — a network-failed one with no checkpoint,
an HTTP-failed one with a half-done checkpoint, and a clean one — are
classified failed, incomplete and completed respectively, and the run
finishes. -/
theorem fetch_command_error_propagation_witness :
    fetchLoop [c3r1, c3r2, c3r3] ⟨[], [], []⟩ =
      RunRes.finished ⟨["C"], [("B", 5, 10)], [("A", "NoStateFile")]⟩ ∧
    (∃ rep, fetchLoop [c3r1, c3r2, c3r3] ⟨[], [], []⟩ = RunRes.finished rep ∧
      ∀ r ∈ [c3r1, c3r2, c3r3], classified rep r) :=
  ⟨by decide, fetch_command_error_propagation [c3r1, c3r2, c3r3] c3_all_caught⟩
